import Mathlib

/-!
# hcolde/cache: a fixed-capacity TTL cache

A shallow embedding of `cache.go`, `item.go`, `options.go` and `error.go`.

Modelling conventions.

* One call of an exported operation is one atomic step: every operation takes the
  mutex on entry and releases it on return, so a step maps a state to an outcome.
* `time.Now()` is an explicit argument `now`. Instants and durations are integers
  (nanoseconds); instants are counted from the zero value of `time.Time`, which is
  what `expireAt` holds for an item whose ttl is not positive.
* The map `items` is an association list read through `mapGet`; `mapSet` replaces
  the binding of a key in place (or appends a new one) and `mapDelete` removes it.
  The map stores pointers: a write through a pointer that is still in the map is a
  `mapSet` at its key.
* The buffered channel `indexPool` is a FIFO list together with its capacity; a
  send appends at the back, the receive in `getIndex` takes the front. The channel
  is never closed, so a receive always reports `ok`.
* `head`, `tail` and slot indices are `uint64`. The only arithmetic on them is
  `(x + 1) % size`, and in every reachable state `x < size` (`reachable_inBounds`)
  with `size` itself a `uint64`, so the addition cannot wrap; they are natural
  numbers.
* A value is an element of the type parameter `V`; the nil returned for an absent
  key is `none`.
* An operation that does not return normally yields a `Fault`: a send on a full
  channel blocks forever (the lock is held, nobody can receive), a slice index out
  of range or a remainder by zero stops the program, and the sweeper loop may spin
  forever.
* `math.Floor(math.Log2(float64(n)))` is library floating point, whose value
  depends on the library version and the architecture (assembly routines, fused
  multiply-add); `New` takes the function `floorLog2` computing
  `int(math.Floor(math.Log2(float64(n))))` as an argument.
* `make` does not return for a length the runtime cannot allocate: it panics when
  the length is out of range and the runtime stops the process when memory runs
  out. `NewAlloc` is `New` with its allocations, the largest length that succeeds
  being the argument `maxLen`; `New` itself is the function once both allocations
  have succeeded.
-/

namespace GoCache

/-- Ways in which an operation fails to return normally. -/
inductive Fault where
  | sendBlocks
  | indexOutOfRange
  | divideByZero
  | loopsForever
  deriving DecidableEq, Repr

/-- The value `ErrMaxSizeIsZero` of `error.go`. -/
inductive Error where
  | ErrMaxSizeIsZero
  deriving DecidableEq, Repr

/-- The struct `Options` of `options.go`. -/
structure Options where
  MaxSize : Nat
  RefreshTTL : Bool
  deriving DecidableEq, Repr

/-- The struct `item` of `item.go`. -/
structure Item (V : Type) where
  Val : V
  index : Nat
  ttl : Int
  expireAt : Int
  deriving DecidableEq, Repr

/-- Method `item.touch`: refresh the expiry when the ttl is positive. -/
def Item.touch {V : Type} (i : Item V) (now : Int) : Item V :=
  if i.ttl > 0 then { i with expireAt := now + i.ttl } else i

/-- Method `item.expired`: `expireAt.Before(time.Now())` for a positive ttl. -/
def Item.expired {V : Type} (i : Item V) (now : Int) : Bool :=
  if i.ttl ≤ 0 then false else decide (i.expireAt < now)

/-- Function `newItem`: the zero expiry, then `touch`. -/
def newItem {V : Type} (now : Int) (val : V) (index : Nat) (ttl : Int) : Item V :=
  Item.touch { Val := val, index := index, ttl := ttl, expireAt := 0 } now

/-- Map read `m[k]` with the comma-ok result. -/
def mapGet {V : Type} : List (String × Item V) → String → Option (Item V)
  | [], _ => none
  | (k', it) :: m, k => if k' = k then some it else mapGet m k

/-- Map write `m[k] = it`. -/
def mapSet {V : Type} : List (String × Item V) → String → Item V → List (String × Item V)
  | [], k, it => [(k, it)]
  | (k', it') :: m, k, it => if k' = k then (k, it) :: m else (k', it') :: mapSet m k it

/-- Builtin `delete(m, k)`. -/
def mapDelete {V : Type} (m : List (String × Item V)) (k : String) : List (String × Item V) :=
  m.filter (fun p => decide (p.1 ≠ k))

/-- The struct `Cache` of `cache.go` (the mutex is the atomicity of a step). -/
structure Cache (V : Type) where
  refreshTTL : Bool
  w : Int
  size : Nat
  head : Nat
  tail : Nat
  ring : List String
  indexPool : List Nat
  indexPoolCap : Nat
  items : List (String × Item V)
  deriving DecidableEq, Repr

/-- Function `New` where `make` accepts the size (see `NewAlloc`), without the
start of the background goroutine. -/
def New {V : Type} (floorLog2 : Nat → Int) (options : Options) : Except Error (Cache V) :=
  if options.MaxSize = 0 then .error .ErrMaxSizeIsZero
  else .ok
    { refreshTTL := options.RefreshTTL
      w := floorLog2 options.MaxSize + 1
      size := options.MaxSize
      head := 0
      tail := options.MaxSize - 1
      ring := List.replicate options.MaxSize ""
      indexPool := []
      indexPoolCap := options.MaxSize
      items := [] }

/-- The failure of `make([]string, n)` or `make(chan uint64, n)`: the run-time panic
`makeslice: len out of range` for a length the runtime does not accept, or the
fatal error of the runtime when memory runs out. -/
inductive MakeFault where
  | makeFails
  deriving DecidableEq, Repr

/-- Function `New` with its allocations. After the test for 0 the composite
literal evaluates `make([]string, MaxSize)` and `make(chan uint64, MaxSize)`, which
do not return when `MaxSize` is above `maxLen`, the largest length for which both
succeed: a length is an `int`, so `maxLen < 2 ^ 63`; the runtime caps an
allocation, which gives at most `2 ^ 44` for `[]string` on 64-bit Linux; and the
memory of the machine may bound it further. The outer result is that failure, the
inner one the pair `(*Cache, error)` that `New` returns. -/
def NewAlloc {V : Type} (maxLen : Nat) (floorLog2 : Nat → Int) (options : Options) :
    Except MakeFault (Except Error (Cache V)) :=
  if options.MaxSize = 0 then .ok (.error .ErrMaxSizeIsZero)
  else if maxLen < options.MaxSize then .error .makeFails
  else .ok (New floorLog2 options)

/-- Method `Cache.get`. The result is the returned value (`none` for nil) and the
state left behind. -/
def get {V : Type} (c : Cache V) (now : Int) (key : String) (forced : Bool) :
    Except Fault (Option V × Cache V) :=
  match mapGet c.items key with
  | some item =>
    if !item.expired now then
      if c.refreshTTL then
        .ok (some item.Val, { c with items := mapSet c.items key (item.touch now) })
      else .ok (some item.Val, c)
    else if c.indexPool.length < c.indexPoolCap then
      if item.index < c.ring.length then
        .ok (if forced then some item.Val else none,
          { c with
            indexPool := c.indexPool ++ [item.index]
            ring := c.ring.set item.index ""
            items := mapDelete c.items key })
      else .error .indexOutOfRange
    else .error .sendBlocks
  | none => .ok (none, c)

/-- Method `Cache.Get`. -/
def Get {V : Type} (c : Cache V) (now : Int) (key : String) : Except Fault (Option V × Cache V) :=
  get c now key false

/-- Method `Cache.ForcedGet`. -/
def ForcedGet {V : Type} (c : Cache V) (now : Int) (key : String) :
    Except Fault (Option V × Cache V) :=
  get c now key true

/-- Method `Cache.removeOnIndex`. -/
def removeOnIndex {V : Type} (c : Cache V) (index : Nat) : Except Fault (Cache V) :=
  match c.ring[index]? with
  | none => .error .indexOutOfRange
  | some key =>
    if key = "" then .ok c
    else
      match mapGet c.items key with
      | none => .ok { c with ring := c.ring.set index "" }
      | some _ => .ok { c with ring := c.ring.set index "", items := mapDelete c.items key }

/-- Method `Cache.getIndex`: the slot handed out and the state left behind. -/
def getIndex {V : Type} (c : Cache V) : Except Fault (Nat × Cache V) :=
  match c.indexPool with
  | index :: rest => .ok (index, { c with indexPool := rest })
  | [] =>
    if c.size = 0 then .error .divideByZero
    else if (c.head + 1) % c.size ≠ c.tail then
      .ok (c.head, { c with head := (c.head + 1) % c.size })
    else
      match removeOnIndex { c with tail := (c.tail + 1) % c.size } c.tail with
      | .error e => .error e
      | .ok c1 => .ok (c.tail, c1)

/-- Method `Cache.Set`. In the relocation branch the write `_item.index = index`
goes through a pointer; it shows in the map only when the key of that item is
still bound after `getIndex`. -/
def Set {V : Type} (c : Cache V) (now : Int) (key : String) (val : V) (ttl : Int) :
    Except Fault (Cache V) :=
  match mapGet c.items key with
  | some item =>
    match c.ring[item.index]? with
    | none => .error .indexOutOfRange
    | some key2 =>
      if key2 = key then
        .ok { c with items := mapSet c.items key (newItem now val item.index ttl) }
      else
        match mapGet c.items key2 with
        | none => .ok c
        | some item2 =>
          if item2.expired now then .ok { c with items := mapDelete c.items key2 }
          else
            match getIndex c with
            | .error e => .error e
            | .ok (index, c1) =>
              if index < c1.ring.length then
                .ok { c1 with
                  ring := c1.ring.set index key2
                  items :=
                    match mapGet c1.items key2 with
                    | some _ => mapSet c1.items key2 { item2 with index := index }
                    | none => c1.items }
              else .error .indexOutOfRange
  | none =>
    match getIndex c with
    | .error e => .error e
    | .ok (index, c1) =>
      if index < c1.ring.length then
        .ok { c1 with
          ring := c1.ring.set index key
          items := mapSet c1.items key (newItem now val index ttl) }
      else .error .indexOutOfRange

/-- One iteration of the inner loop of `Cache.remove` at slot `index`: the body,
without the post statement. The result is the new state and the new count. -/
def sweepSlot {V : Type} (c : Cache V) (now : Int) (index : Nat) (count : Nat) :
    Except Fault (Cache V × Nat) :=
  match c.ring[index]? with
  | none => .error .indexOutOfRange
  | some key =>
    if key = "" then .ok (c, count)
    else
      match mapGet c.items key with
      | none => .ok ({ c with ring := c.ring.set index "" }, count)
      | some item =>
        if !item.expired now then .ok (c, count)
        else
          .ok ({ c with ring := c.ring.set index "", items := mapDelete c.items key },
            count + 1)

/-- The inner loop of `Cache.remove` with `w` iterations left: the result is the
state, the final cursor and the count. -/
def sweepPass {V : Type} (now : Int) : Nat → Cache V → Nat → Nat →
    Except Fault (Cache V × Nat × Nat)
  | 0, c, index, count => .ok (c, index, count)
  | w + 1, c, index, count =>
    match sweepSlot c now index count with
    | .error e => .error e
    | .ok (c1, count1) =>
      if c1.size = 0 then .error .divideByZero
      else sweepPass now w c1 ((index + 1) % c1.size) count1

/-- The outer loop of `Cache.remove`, at most `fuel` passes. The test
`float64(count) < float64(c.w) * 0.25` is exact on these small integers and reads
`4 * count < w`. -/
def removeLoop {V : Type} (now : Int) : Nat → Cache V → Except Fault (Cache V)
  | 0, _ => .error .loopsForever
  | fuel + 1, c =>
    match sweepPass now c.w.toNat c c.tail 0 with
    | .error e => .error e
    | .ok (c1, index, count) =>
      if 4 * (count : Int) < c1.w then .ok { c1 with tail := index }
      else removeLoop now fuel { c1 with tail := index }

/-- Method `Cache.remove`, one invocation of the sweeper. A pass that asks for
another one has deleted a key, so one more pass than there are keys is enough
whenever the loop ends at all. -/
def remove {V : Type} (c : Cache V) (now : Int) : Except Fault (Cache V) :=
  removeLoop now (c.items.length + 1) c

/-- One atomic step of the cache. -/
inductive Op (V : Type) where
  | set (now : Int) (key : String) (val : V) (ttl : Int)
  | get (now : Int) (key : String)
  | forcedGet (now : Int) (key : String)
  | sweep (now : Int)
  deriving DecidableEq, Repr

/-- The state after one step. -/
def step {V : Type} (c : Cache V) : Op V → Except Fault (Cache V)
  | .set now key val ttl => Set c now key val ttl
  | .get now key => (Get c now key).map Prod.snd
  | .forcedGet now key => (ForcedGet c now key).map Prod.snd
  | .sweep now => remove c now

/-- The state after a sequence of steps. -/
def run {V : Type} (c : Cache V) : List (Op V) → Except Fault (Cache V)
  | [] => .ok c
  | op :: ops =>
    match step c op with
    | .error e => .error e
    | .ok c1 => run c1 ops

/-- States reachable from a freshly built cache by Set, Get, ForcedGet and sweeper
steps. -/
def Reachable {V : Type} (floorLog2 : Nat → Int) (options : Options) (c : Cache V) : Prop :=
  ∃ c0 ops, New floorLog2 options = .ok c0 ∧ run c0 ops = .ok c

/-- What a sweep at `now` may do to the Index: every key keeps its entry, or had an
entry expired at `now` and has none any more. -/
def Swept {V : Type} (now : Int) (m m1 : List (String × Item V)) : Prop :=
  ∀ k, mapGet m1 k = mapGet m k ∨
    (mapGet m1 k = none ∧ ∃ it, mapGet m k = some it ∧ it.expired now = true)

/-- The part of the state that the sweeper leaves alone. -/
def Frame {V : Type} (c c1 : Cache V) : Prop :=
  c1.refreshTTL = c.refreshTTL ∧ c1.w = c.w ∧ c1.size = c.size ∧ c1.head = c.head ∧
    c1.indexPool = c.indexPool ∧ c1.indexPoolCap = c.indexPoolCap ∧
    c1.ring.length = c.ring.length

/-- The Set of `p.2.1` to `p.2.2` with ttl 0 at instant `p.1`. -/
def setForever {V : Type} (p : Int × String × V) : Op V :=
  .set p.1 p.2.1 p.2.2 0

/-- The shape of a cache of capacity `n` while its first `n` slots are handed out,
after `m` of them: the free-slot queue is empty; up to the last but one slot `head`
counts the Sets, `tail` is still `n - 1` and the cell there is empty; before the
last slot `head` is `n - 2` and `tail` is 0. -/
def Filling {V : Type} (n m : Nat) (c : Cache V) : Prop :=
  c.size = n ∧ c.ring.length = n ∧ c.indexPool = [] ∧
    ((m + 2 ≤ n ∨ (n = 1 ∧ m = 0)) →
      c.head = m ∧ c.tail = n - 1 ∧ c.ring[n - 1]? = some "") ∧
    ((m + 1 = n ∧ 2 ≤ n) → c.head = n - 2 ∧ c.tail = 0)

/-- Bounds that every run keeps: the ring has `size` cells, `head`, `tail`, every
slot recorded in the Index and every queued slot lie inside the ring, and the
queue has room for `size` slots. -/
def InBounds {V : Type} (c : Cache V) : Prop :=
  0 < c.size ∧ c.ring.length = c.size ∧ c.head < c.size ∧ c.tail < c.size ∧
    c.indexPoolCap = c.size ∧
    (∀ k it, mapGet c.items k = some it → it.index < c.size) ∧
    (∀ i ∈ c.indexPool, i < c.size)

/-- The outer loop of `Cache.remove` as in `removeLoop`, also counting the passes
it performs. -/
def removePasses {V : Type} (now : Int) : Nat → Cache V → Except Fault (Cache V × Nat)
  | 0, _ => .error .loopsForever
  | fuel + 1, c =>
    match sweepPass now c.w.toNat c c.tail 0 with
    | .error e => .error e
    | .ok (c1, index, count) =>
      if 4 * (count : Int) < c1.w then .ok ({ c1 with tail := index }, 1)
      else
        match removePasses now fuel { c1 with tail := index } with
        | .error e => .error e
        | .ok (c2, passes) => .ok (c2, passes + 1)

/-- Wording of the sweep: the `w` consecutive slots `index, index + 1, ...,
index + w - 1` taken modulo `size`. -/
def slotsFrom (size index w : Nat) : List Nat :=
  (List.range w).map (fun j => (index + j) % size)

/-- Wording of the sweep: the window of a pass, the `w` consecutive slots from
`tail`. -/
def windowSlots {V : Type} (c : Cache V) : List Nat :=
  slotsFrom c.size c.tail c.w.toNat

/-- Wording of the sweep: what a pass does at one examined slot. A cell whose key
is missing from the Index is cleared; a cell whose key is expired at `now` is
cleared and the entry deleted, which counts 1; anything else is left untouched. -/
def examineSlot {V : Type} (now : Int) (c : Cache V) (i : Nat) : Cache V × Nat :=
  match c.ring[i]? with
  | none => (c, 0)
  | some key =>
    if key = "" then (c, 0)
    else
      match mapGet c.items key with
      | none => ({ c with ring := c.ring.set i "" }, 0)
      | some it =>
        if it.expired now then
          ({ c with ring := c.ring.set i "", items := mapDelete c.items key }, 1)
        else (c, 0)

/-- Wording of the sweep: the slots of a list are examined one after another and
the removals are counted. -/
def examineSlots {V : Type} (now : Int) : List Nat → Cache V → Nat → Cache V × Nat
  | [], c, count => (c, count)
  | i :: slots, c, count =>
    examineSlots now slots (examineSlot now c i).1 (count + (examineSlot now c i).2)

/-- Wording of the sweep: one pass examines the window and then sets `tail` to
`(tail + w) mod N`; the result is the state and the removed-count. -/
def specPass {V : Type} (now : Int) (c : Cache V) : Cache V × Nat :=
  ({ (examineSlots now (windowSlots c) c 0).1 with tail := (c.tail + c.w.toNat) % c.size },
    (examineSlots now (windowSlots c) c 0).2)

/-- Wording of the sweep: one invocation is a sequence of passes; another pass
follows exactly when the removed-count of a pass is at least 25% of `w`. The
result is the final state and the number of passes, `none` when `fuel` passes do
not end the sequence. -/
def specSweep {V : Type} (now : Int) : Nat → Cache V → Option (Cache V × Nat)
  | 0, _ => none
  | fuel + 1, c =>
    if c.w ≤ 4 * ((specPass now c).2 : Int) then
      match specSweep now fuel (specPass now c).1 with
      | none => none
      | some (c2, passes) => some (c2, passes + 1)
    else some ((specPass now c).1, 1)

/-- The Index binds every key once (the association list repeats no key), so its
number of keys is the length of the list. -/
def UniqueKeys {V : Type} (m : List (String × Item V)) : Prop :=
  (m.map Prod.fst).Nodup

/-- What no step changes: the window, the capacity, the refresh flag and the
capacity of the free-slot queue. -/
def SameConfig {V : Type} (c c1 : Cache V) : Prop :=
  c1.w = c.w ∧ c1.size = c.size ∧ c1.refreshTTL = c.refreshTTL ∧
    c1.indexPoolCap = c.indexPoolCap

/-- The slot that the Set number `i` (from 0) of a fresh cache of capacity `n` is
given while the first `n` slots are handed out: `head` serves the slots in order,
except that the Set number `n - 2` finds `(head + 1) % n = tail` and takes slot
`n - 1` from `tail`, after which `head` serves slot `n - 2`. -/
def slotOf (n i : Nat) : Nat :=
  if i + 3 ≤ n then i else if i + 2 = n then n - 1 else n - 2

/-- The Set of key `p.2.1` to value `p.2.2.1` with ttl `p.2.2.2` at instant `p.1`. -/
def setWith {V : Type} (p : Int × String × V × Int) : Op V :=
  .set p.1 p.2.1 p.2.2.1 p.2.2.2

/-! ## The map primitives -/

theorem mapGet_mapDelete {V : Type} (m : List (String × Item V)) (k k2 : String) :
    mapGet (mapDelete m k) k2 = if k2 = k then none else mapGet m k2 := by
  induction m with
  | nil => simp [mapDelete, mapGet]
  | cons p m ih =>
    obtain ⟨k1, it⟩ := p
    unfold mapDelete at ih ⊢
    by_cases h1 : k1 = k
    · subst h1
      simp only [List.filter, ne_eq, not_true_eq_false, decide_False, mapGet]
      rw [ih]
      by_cases h2 : k2 = k1
      · simp [h2]
      · have h3 : ¬ k1 = k2 := fun h => h2 h.symm
        simp [h2, h3]
    · simp only [List.filter, ne_eq, h1, not_false_eq_true, decide_True, mapGet]
      rw [ih]
      by_cases h2 : k2 = k
      · subst h2
        simp [h1]
      · simp [h2]

theorem mapGet_mapSet {V : Type} (m : List (String × Item V)) (k k2 : String) (it : Item V) :
    mapGet (mapSet m k it) k2 = if k2 = k then some it else mapGet m k2 := by
  induction m with
  | nil =>
    by_cases h : k2 = k
    · simp [mapSet, mapGet, h]
    · have h3 : ¬ k = k2 := fun e => h e.symm
      simp [mapSet, mapGet, h, h3]
  | cons p m ih =>
    obtain ⟨k1, it1⟩ := p
    by_cases h1 : k1 = k
    · subst h1
      by_cases h2 : k2 = k1
      · simp [mapSet, mapGet, h2]
      · have h3 : ¬ k1 = k2 := fun e => h2 e.symm
        simp [mapSet, mapGet, h2, h3]
    · simp only [mapSet, h1, if_false, mapGet, ih]
      by_cases h2 : k2 = k
      · subst h2
        simp [h1]
      · simp [h2]

theorem mapSet_self {V : Type} (m : List (String × Item V)) (k : String) (it : Item V)
    (h : mapGet m k = some it) : mapSet m k it = m := by
  induction m with
  | nil => simp [mapGet] at h
  | cons p m ih =>
    obtain ⟨k1, it1⟩ := p
    by_cases h1 : k1 = k
    · subst h1
      simp only [mapGet, if_true, Option.some.injEq] at h
      simp [mapSet, h]
    · simp only [mapGet, h1, if_false] at h
      simp [mapSet, h1, ih h]

theorem mapDelete_length_lt {V : Type} (m : List (String × Item V)) (k : String) (it : Item V)
    (h : mapGet m k = some it) : (mapDelete m k).length < m.length := by
  induction m with
  | nil => simp [mapGet] at h
  | cons p m ih =>
    obtain ⟨k1, it1⟩ := p
    unfold mapDelete at ih ⊢
    by_cases h1 : k1 = k
    · subst h1
      simp only [List.filter, ne_eq, not_true_eq_false, decide_False, List.length_cons]
      exact Nat.lt_succ_of_le (List.length_filter_le _ _)
    · simp only [mapGet, h1, if_false] at h
      simp only [List.filter, ne_eq, h1, not_false_eq_true, decide_True, List.length_cons]
      exact Nat.succ_lt_succ (ih h)

theorem expired_false_of_ttl_le {V : Type} (it : Item V) (now : Int) (h : it.ttl ≤ 0) :
    it.expired now = false := by
  simp [Item.expired, h]

theorem touch_of_ttl_le {V : Type} (it : Item V) (now : Int) (h : it.ttl ≤ 0) :
    it.touch now = it := by
  have h2 : ¬ it.ttl > 0 := by omega
  simp [Item.touch, h2]

theorem newItem_zero {V : Type} (now : Int) (val : V) (index : Nat) :
    newItem now val index 0 = ⟨val, index, 0, 0⟩ := by
  simp [newItem, Item.touch]

theorem get_of_ttl_le {V : Type} (c : Cache V) (key : String) (it : Item V) (now : Int)
    (forced : Bool) (hk : mapGet c.items key = some it) (hd : it.ttl ≤ 0) :
    get c now key forced = .ok (some it.Val, c) := by
  have hexp := expired_false_of_ttl_le it now hd
  cases hr : c.refreshTTL
  · simp [get, hk, hexp, hr]
  · have hset : mapSet c.items key it = c.items := mapSet_self _ _ _ hk
    simp only [get, hk, hexp, hr, touch_of_ttl_le it now hd, hset, Bool.not_false, if_true]
    rw [← hr]

/-! ## Reads -/

/-- A read of a key with positive ttl, where the free-slot queue has room. For a key
bound in the Index to an entry with positive ttl, whose expiry was computed as
(instant of the Set or of the last refresh) + ttl:
Get at `now` returns the stored value when `now` is not after the expiry; when `now`
is after it (free-slot queue not full, recorded slot inside the ring) Get returns
absent, deletes the key from the Index, writes the empty marker into the ring cell
of the recorded slot and appends that slot to the back of the free-slot queue, with
head and tail unchanged. -/
theorem get_ttl_expiry {V : Type} (c : Cache V) (key : String) (it : Item V) (now : Int)
    (hk : mapGet c.items key = some it) (hd : 0 < it.ttl) :
    (∀ (t : Int) (v : V) (i : Nat), (newItem t v i it.ttl).expireAt = t + it.ttl) ∧
    (∀ t : Int, (it.touch t).expireAt = t + it.ttl) ∧
    (now ≤ it.expireAt →
      Get c now key = .ok (some it.Val,
        if c.refreshTTL then { c with items := mapSet c.items key (it.touch now) } else c)) ∧
    (it.expireAt < now → c.indexPool.length < c.indexPoolCap → it.index < c.ring.length →
      ∃ c', Get c now key = .ok (none, c') ∧
        c'.items = mapDelete c.items key ∧ mapGet c'.items key = none ∧
        c'.ring = c.ring.set it.index "" ∧ c'.ring[it.index]? = some "" ∧
        c'.indexPool = c.indexPool ++ [it.index] ∧
        c'.head = c.head ∧ c'.tail = c.tail ∧ c'.size = c.size ∧ c'.w = c.w ∧
        c'.refreshTTL = c.refreshTTL ∧ c'.indexPoolCap = c.indexPoolCap) := by
  have hnot : ¬ it.ttl ≤ 0 := by omega
  refine ⟨?_, ?_, ?_, ?_⟩
  · intro t v i
    simp [newItem, Item.touch, hd]
  · intro t
    simp [Item.touch, hd]
  · intro hle
    have hexp : it.expired now = false := by
      have : ¬ it.expireAt < now := by omega
      simp [Item.expired, hnot, this]
    cases hr : c.refreshTTL <;> simp [Get, get, hk, hexp, hr]
  · intro hlt hpool hidx
    have hexp : it.expired now = true := by
      simp [Item.expired, hnot, hlt]
    refine ⟨{ c with
      indexPool := c.indexPool ++ [it.index]
      ring := c.ring.set it.index ""
      items := mapDelete c.items key }, ?_, rfl, ?_, rfl, ?_, rfl, rfl, rfl, rfl, rfl, rfl, rfl⟩
    · simp [Get, get, hk, hexp, hpool, hidx]
    · simp [mapGet_mapDelete]
    · simp [List.getElem?_set, hidx]

/-- Witness of `get_ttl_expiry`: capacity 2, key a set at instant 0 with ttl 5, read
at instant 3 and at instant 6. -/
theorem get_ttl_expiry_witness :
    Get (⟨false, 2, 2, 0, 0, ["", "a"], [], 2, [("a", ⟨1, 1, 5, 5⟩)]⟩ : Cache Nat) 3 "a"
        = .ok (some 1, ⟨false, 2, 2, 0, 0, ["", "a"], [], 2, [("a", ⟨1, 1, 5, 5⟩)]⟩) ∧
    ∃ c', Get (⟨false, 2, 2, 0, 0, ["", "a"], [], 2, [("a", ⟨1, 1, 5, 5⟩)]⟩ : Cache Nat)
          6 "a" = .ok (none, c') ∧
        c'.items = [] ∧ mapGet c'.items "a" = none ∧
        c'.ring = ["", ""] ∧ c'.ring[1]? = some "" ∧
        c'.indexPool = [1] ∧
        c'.head = 0 ∧ c'.tail = 0 ∧ c'.size = 2 ∧ c'.w = 2 ∧
        c'.refreshTTL = false ∧ c'.indexPoolCap = 2 :=
  ⟨(get_ttl_expiry (⟨false, 2, 2, 0, 0, ["", "a"], [], 2, [("a", ⟨1, 1, 5, 5⟩)]⟩ : Cache Nat)
      "a" ⟨1, 1, 5, 5⟩ 3 rfl (by decide)).2.2.1 (by decide),
   (get_ttl_expiry (⟨false, 2, 2, 0, 0, ["", "a"], [], 2, [("a", ⟨1, 1, 5, 5⟩)]⟩ : Cache Nat)
      "a" ⟨1, 1, 5, 5⟩ 6 rfl (by decide)).2.2.2 (by decide) (by decide) (by decide)⟩

/-! ## The sweeper -/

theorem swept_refl {V : Type} (now : Int) (m : List (String × Item V)) : Swept now m m :=
  fun _ => Or.inl rfl

theorem swept_trans {V : Type} {now : Int} {m m1 m2 : List (String × Item V)}
    (h1 : Swept now m m1) (h2 : Swept now m1 m2) : Swept now m m2 := by
  intro k
  rcases h2 k with e2 | ⟨e2, it, hit, hexp⟩
  · rcases h1 k with e1 | ⟨e1, h⟩
    · exact Or.inl (e2.trans e1)
    · exact Or.inr ⟨e2.trans e1, h⟩
  · rcases h1 k with e1 | ⟨e1, _⟩
    · exact Or.inr ⟨e2, it, e1 ▸ hit, hexp⟩
    · rw [e1] at hit
      exact absurd hit (by simp)

theorem swept_mapDelete {V : Type} (now : Int) (m : List (String × Item V)) (key : String)
    (it : Item V) (hk : mapGet m key = some it) (hexp : it.expired now = true) :
    Swept now m (mapDelete m key) := by
  intro k
  rw [mapGet_mapDelete]
  by_cases h : k = key
  · subst h
    exact Or.inr ⟨by simp, it, hk, hexp⟩
  · exact Or.inl (by simp [h])

theorem frame_refl {V : Type} (c : Cache V) : Frame c c :=
  ⟨rfl, rfl, rfl, rfl, rfl, rfl, rfl⟩

theorem frame_trans {V : Type} {c c1 c2 : Cache V} (h1 : Frame c c1) (h2 : Frame c1 c2) :
    Frame c c2 := by
  obtain ⟨a1, a2, a3, a4, a5, a6, a7⟩ := h1
  obtain ⟨b1, b2, b3, b4, b5, b6, b7⟩ := h2
  exact ⟨b1.trans a1, b2.trans a2, b3.trans a3, b4.trans a4, b5.trans a5, b6.trans a6,
    b7.trans a7⟩

theorem sweepSlot_spec {V : Type} {c c1 : Cache V} {now : Int} {index count count1 : Nat}
    (h : sweepSlot c now index count = .ok (c1, count1)) :
    Swept now c.items c1.items ∧ Frame c c1 ∧ c1.tail = c.tail ∧
      c1.items.length + count1 ≤ c.items.length + count ∧ count ≤ count1 := by
  unfold sweepSlot at h
  split at h
  · simp at h
  · rename_i key hkey
    split at h
    · simp only [Except.ok.injEq, Prod.mk.injEq] at h
      obtain ⟨rfl, rfl⟩ := h
      exact ⟨swept_refl _ _, frame_refl _, rfl, le_refl _, le_refl _⟩
    · split at h
      · simp only [Except.ok.injEq, Prod.mk.injEq] at h
        obtain ⟨rfl, rfl⟩ := h
        exact ⟨swept_refl _ _, ⟨rfl, rfl, rfl, rfl, rfl, rfl, by simp⟩, rfl, le_refl _,
          le_refl _⟩
      · rename_i item hitem
        split at h
        · simp only [Except.ok.injEq, Prod.mk.injEq] at h
          obtain ⟨rfl, rfl⟩ := h
          exact ⟨swept_refl _ _, frame_refl _, rfl, le_refl _, le_refl _⟩
        · rename_i hexp
          simp only [Except.ok.injEq, Prod.mk.injEq] at h
          obtain ⟨rfl, rfl⟩ := h
          have hexp2 : item.expired now = true := by simpa using hexp
          have hlen := mapDelete_length_lt c.items key item hitem
          refine ⟨swept_mapDelete now _ _ item hitem hexp2, ⟨rfl, rfl, rfl, rfl, rfl, rfl, by simp⟩,
            rfl, ?_, Nat.le_succ _⟩
          simp only
          omega

theorem sweepSlot_ok {V : Type} (c : Cache V) (now : Int) (index count : Nat)
    (hi : index < c.ring.length) : ∃ r, sweepSlot c now index count = .ok r := by
  unfold sweepSlot
  have hget : c.ring[index]? = some (c.ring[index]) := List.getElem?_eq_getElem hi
  rw [hget]
  simp only
  split
  · exact ⟨_, rfl⟩
  · split
    · exact ⟨_, rfl⟩
    · split
      · exact ⟨_, rfl⟩
      · exact ⟨_, rfl⟩

theorem sweepPass_spec {V : Type} {now : Int} (w : Nat) :
    ∀ {c c1 : Cache V} {index index1 count count1 : Nat},
      sweepPass now w c index count = .ok (c1, index1, count1) →
      Swept now c.items c1.items ∧ Frame c c1 ∧ c1.tail = c.tail ∧
        c1.items.length + count1 ≤ c.items.length + count ∧ count ≤ count1 := by
  induction w with
  | zero =>
    intro c c1 index index1 count count1 h
    simp only [sweepPass, Except.ok.injEq, Prod.mk.injEq] at h
    obtain ⟨rfl, rfl, rfl⟩ := h
    exact ⟨swept_refl _ _, frame_refl _, rfl, le_refl _, le_refl _⟩
  | succ w ih =>
    intro c c1 index index1 count count1 h
    simp only [sweepPass] at h
    split at h
    · simp at h
    · rename_i c2 count2 hslot
      split at h
      · simp at h
      · obtain ⟨s1, f1, t1, l1, m1⟩ := sweepSlot_spec hslot
        obtain ⟨s2, f2, t2, l2, m2⟩ := ih h
        exact ⟨swept_trans s1 s2, frame_trans f1 f2, t2.trans t1, by omega, by omega⟩

theorem sweepPass_ok {V : Type} (now : Int) (w : Nat) :
    ∀ (c : Cache V) (index count : Nat), 0 < c.size → c.size ≤ c.ring.length →
      index < c.ring.length →
      ∃ c1 index1 count1, sweepPass now w c index count = .ok (c1, index1, count1) ∧
        (index1 = index ∨ index1 < c.size) := by
  induction w with
  | zero =>
    intro c index count _ _ _
    exact ⟨c, index, count, rfl, Or.inl rfl⟩
  | succ w ih =>
    intro c index count hs hr hi
    obtain ⟨⟨c2, count2⟩, hslot⟩ := sweepSlot_ok c now index count hi
    obtain ⟨_, f1, _, _, _⟩ := sweepSlot_spec hslot
    obtain ⟨_, _, fs, _, _, _, fr⟩ := f1
    have hs2 : 0 < c2.size := fs ▸ hs
    have hne : ¬ c2.size = 0 := by omega
    have hmod : (index + 1) % c2.size < c2.size := Nat.mod_lt _ hs2
    obtain ⟨c1, index1, count1, hp, hidx⟩ :=
      ih c2 ((index + 1) % c2.size) count2 hs2 (by omega) (by omega)
    refine ⟨c1, index1, count1, ?_, Or.inr ?_⟩
    · simp only [sweepPass, hslot, hne, if_false]
      exact hp
    · rcases hidx with h | h <;> omega

theorem removeLoop_spec {V : Type} {now : Int} (fuel : Nat) :
    ∀ {c c1 : Cache V}, removeLoop now fuel c = .ok c1 →
      Swept now c.items c1.items ∧ Frame c c1 := by
  induction fuel with
  | zero =>
    intro c c1 h
    simp [removeLoop] at h
  | succ fuel ih =>
    intro c c1 h
    simp only [removeLoop] at h
    split at h
    · simp at h
    · rename_i c2 index count hpass
      obtain ⟨s1, f1, _, _, _⟩ := sweepPass_spec _ hpass
      have f2 : Frame c { c2 with tail := index } := f1
      split at h
      · simp only [Except.ok.injEq] at h
        subst h
        exact ⟨s1, f2⟩
      · obtain ⟨s3, f3⟩ := ih h
        exact ⟨swept_trans s1 s3, frame_trans f2 f3⟩

theorem removeLoop_ok {V : Type} (now : Int) (fuel : Nat) :
    ∀ (c : Cache V), 0 < c.w → 0 < c.size → c.size ≤ c.ring.length →
      c.tail < c.ring.length → c.items.length < fuel →
      ∃ c1, removeLoop now fuel c = .ok c1 := by
  induction fuel with
  | zero =>
    intro c _ _ _ _ hf
    omega
  | succ fuel ih =>
    intro c hw hs hr ht hf
    obtain ⟨c2, index, count, hpass, hidx⟩ := sweepPass_ok now c.w.toNat c c.tail 0 hs hr ht
    obtain ⟨_, f1, _, hlen, _⟩ := sweepPass_spec _ hpass
    obtain ⟨_, fw, fs, _, _, _, fr⟩ := f1
    simp only [removeLoop, hpass]
    by_cases hc : 4 * (count : Int) < c2.w
    · simp [hc]
    · simp only [hc, if_false]
      have hcount : 0 < count := by
        rw [fw] at hc
        omega
      apply ih
      · exact fw ▸ hw
      · exact fs ▸ hs
      · simp only
        omega
      · simp only
        rcases hidx with h | h <;> omega
      · simp only
        omega

/-- The sweeper returns whenever its window is positive and the ring is in order. -/
theorem remove_ok {V : Type} (c : Cache V) (now : Int) (hw : 0 < c.w) (hs : 0 < c.size)
    (hr : c.size ≤ c.ring.length) (ht : c.tail < c.ring.length) :
    ∃ c1, remove c now = .ok c1 :=
  removeLoop_ok now _ c hw hs hr ht (Nat.lt_succ_self _)

theorem remove_spec {V : Type} {c c1 : Cache V} {now : Int} (h : remove c now = .ok c1) :
    Swept now c.items c1.items ∧ Frame c c1 :=
  removeLoop_spec _ h

/-- C10. The sweeper never removes a live entry. One invocation of `remove` at `now`
returns (positive window, ring in order), and when it returns: every key that was
bound before and is not expired at `now` is still bound to the same entry (value,
ttl, expiry and slot), the sweeper adds no binding, and every key it deleted had
an entry expired at `now`. -/
theorem sweeper_keeps_live_entries {V : Type} (c : Cache V) (now : Int) :
    (0 < c.w → 0 < c.size → c.size ≤ c.ring.length → c.tail < c.ring.length →
      ∃ c', remove c now = .ok c') ∧
    ∀ c', remove c now = .ok c' →
      (∀ k it, mapGet c.items k = some it → it.expired now = false →
        mapGet c'.items k = some it) ∧
      (∀ k it, mapGet c'.items k = some it → mapGet c.items k = some it) ∧
      (∀ k it, mapGet c.items k = some it → mapGet c'.items k = none →
        it.expired now = true) := by
  refine ⟨remove_ok c now, ?_⟩
  intro c' h
  obtain ⟨hs, _⟩ := remove_spec h
  refine ⟨?_, ?_, ?_⟩
  · intro k it hk hexp
    rcases hs k with e | ⟨_, it2, hit2, hexp2⟩
    · exact e.trans hk
    · rw [hk] at hit2
      simp only [Option.some.injEq] at hit2
      subst hit2
      rw [hexp] at hexp2
      exact absurd hexp2 (by simp)
  · intro k it hk
    rcases hs k with e | ⟨e, _⟩
    · exact e ▸ hk
    · rw [e] at hk
      exact absurd hk (by simp)
  · intro k it hk hnone
    rcases hs k with e | ⟨_, it2, hit2, hexp2⟩
    · rw [hnone, hk] at e
      exact absurd e (by simp)
    · rw [hk] at hit2
      simp only [Option.some.injEq] at hit2
      exact hit2 ▸ hexp2

/-- Witness of `sweeper_keeps_live_entries`: capacity 2, key a expired and key b
without expiry; the sweep at instant 10 deletes a and keeps b. -/
theorem sweeper_keeps_live_entries_witness :
    remove (⟨false, 2, 2, 1, 0, ["b", "a"], [], 2,
        [("a", ⟨1, 1, 5, 5⟩), ("b", ⟨2, 0, 0, 0⟩)]⟩ : Cache Nat) 10
      = .ok ⟨false, 2, 2, 1, 0, ["b", ""], [], 2, [("b", ⟨2, 0, 0, 0⟩)]⟩ ∧
    mapGet [("b", (⟨2, 0, 0, 0⟩ : Item Nat))] "b" = some ⟨2, 0, 0, 0⟩ ∧
    (⟨1, 1, 5, 5⟩ : Item Nat).expired 10 = true :=
  ⟨rfl,
   ((sweeper_keeps_live_entries (⟨false, 2, 2, 1, 0, ["b", "a"], [], 2,
        [("a", ⟨1, 1, 5, 5⟩), ("b", ⟨2, 0, 0, 0⟩)]⟩ : Cache Nat) 10).2
      ⟨false, 2, 2, 1, 0, ["b", ""], [], 2, [("b", ⟨2, 0, 0, 0⟩)]⟩ rfl).1
      "b" ⟨2, 0, 0, 0⟩ rfl rfl,
   ((sweeper_keeps_live_entries (⟨false, 2, 2, 1, 0, ["b", "a"], [], 2,
        [("a", ⟨1, 1, 5, 5⟩), ("b", ⟨2, 0, 0, 0⟩)]⟩ : Cache Nat) 10).2
      ⟨false, 2, 2, 1, 0, ["b", ""], [], 2, [("b", ⟨2, 0, 0, 0⟩)]⟩ rfl).2.2
      "a" ⟨1, 1, 5, 5⟩ rfl rfl⟩

/-! ## Slot allocation -/

theorem removeOnIndex_items {V : Type} {c c1 : Cache V} {index : Nat}
    (h : removeOnIndex c index = .ok c1) (k : String) :
    mapGet c1.items k = mapGet c.items k ∨
      (mapGet c1.items k = none ∧ c.ring[index]? = some k) := by
  unfold removeOnIndex at h
  split at h
  · simp at h
  · rename_i key hkey
    split at h
    · simp only [Except.ok.injEq] at h
      subst h
      exact Or.inl rfl
    · split at h
      · simp only [Except.ok.injEq] at h
        subst h
        exact Or.inl rfl
      · simp only [Except.ok.injEq] at h
        subst h
        simp only [mapGet_mapDelete]
        by_cases hk : k = key
        · subst hk
          exact Or.inr ⟨by simp, hkey⟩
        · exact Or.inl (by simp [hk])

/-- Slot allocation deletes a key from the Index only in its eviction branch: the
free-slot queue is empty, `(head + 1) % size = tail`, the slot handed out is the
old tail and the key deleted is the one in the ring cell at the old tail. -/
theorem getIndex_items {V : Type} {c c1 : Cache V} {index : Nat}
    (h : getIndex c = .ok (index, c1)) (k : String) :
    mapGet c1.items k = mapGet c.items k ∨
      (mapGet c1.items k = none ∧ c.indexPool = [] ∧ (c.head + 1) % c.size = c.tail ∧
        index = c.tail ∧ c.ring[c.tail]? = some k) := by
  unfold getIndex at h
  split at h
  · simp only [Except.ok.injEq, Prod.mk.injEq] at h
    obtain ⟨_, rfl⟩ := h
    exact Or.inl rfl
  · rename_i hpool
    split at h
    · simp at h
    · split at h
      · simp only [Except.ok.injEq, Prod.mk.injEq] at h
        obtain ⟨_, rfl⟩ := h
        exact Or.inl rfl
      · rename_i hfull
        split at h
        · simp at h
        · rename_i c2 hrem
          simp only [Except.ok.injEq, Prod.mk.injEq] at h
          obtain ⟨rfl, rfl⟩ := h
          rcases removeOnIndex_items hrem k with e | ⟨e, hr⟩
          · exact Or.inl e
          · exact Or.inr ⟨e, hpool, by simpa using hfull, rfl, hr⟩

/-- A Set loses a bound key only when that key was expired or was evicted by slot
allocation. -/
theorem Set_items_removed {V : Type} {c c' : Cache V} {now : Int} {key2 : String} {val : V}
    {ttl : Int} (h : Set c now key2 val ttl = .ok c') (key : String) (it : Item V)
    (hk : mapGet c.items key = some it) (hgone : mapGet c'.items key = none) :
    it.expired now = true ∨
      (c.indexPool = [] ∧ (c.head + 1) % c.size = c.tail ∧ c.ring[c.tail]? = some key) := by
  unfold Set at h
  split at h
  · rename_i item hitem
    split at h
    · simp at h
    · rename_i key3 hkey3
      split at h
      · simp only [Except.ok.injEq] at h
        subst h
        simp only [mapGet_mapSet] at hgone
        split at hgone
        · simp at hgone
        · rw [hk] at hgone
          simp at hgone
      · split at h
        · simp only [Except.ok.injEq] at h
          subst h
          rw [hk] at hgone
          simp at hgone
        · rename_i item2 hitem2
          split at h
          · rename_i hexp
            simp only [Except.ok.injEq] at h
            subst h
            simp only [mapGet_mapDelete] at hgone
            split at hgone
            · rename_i heq
              subst heq
              rw [hk] at hitem2
              simp only [Option.some.injEq] at hitem2
              subst hitem2
              exact Or.inl hexp
            · rw [hk] at hgone
              simp at hgone
          · split at h
            · simp at h
            · rename_i index c1 hget
              split at h
              · simp only [Except.ok.injEq] at h
                subst h
                have hc1 : mapGet c1.items key = none := by
                  simp only at hgone
                  split at hgone
                  · simp only [mapGet_mapSet] at hgone
                    split at hgone
                    · simp at hgone
                    · exact hgone
                  · exact hgone
                rcases getIndex_items hget key with e | ⟨_, h1, h2, _, h4⟩
                · rw [hc1, hk] at e
                  simp at e
                · exact Or.inr ⟨h1, h2, h4⟩
              · simp at h
  · split at h
    · simp at h
    · rename_i index c1 hget
      split at h
      · simp only [Except.ok.injEq] at h
        subst h
        have hc1 : mapGet c1.items key = none := by
          simp only [mapGet_mapSet] at hgone
          split at hgone
          · simp at hgone
          · exact hgone
        rcases getIndex_items hget key with e | ⟨_, h1, h2, _, h4⟩
        · rw [hc1, hk] at e
          simp at e
        · exact Or.inr ⟨h1, h2, h4⟩
      · simp at h

/-- A read leaves the bindings of all other keys alone; the key read keeps its
entry up to a refresh of the expiry, or is deleted when expired. -/
theorem get_items {V : Type} {c c' : Cache V} {now : Int} {key2 : String} {forced : Bool}
    {r : Option V} (h : get c now key2 forced = .ok (r, c')) (k : String) :
    (k ≠ key2 → mapGet c'.items k = mapGet c.items k) ∧
    (∀ it, mapGet c.items k = some it → it.expired now = false →
      mapGet c'.items k = some it ∨ mapGet c'.items k = some (it.touch now)) := by
  unfold get at h
  split at h
  · rename_i item hitem
    split at h
    · rename_i hexp
      split at h
      · simp only [Except.ok.injEq, Prod.mk.injEq] at h
        obtain ⟨_, rfl⟩ := h
        simp only [mapGet_mapSet]
        constructor
        · intro hne
          simp [hne]
        · intro it hit _
          by_cases hkk : k = key2
          · subst hkk
            rw [hit] at hitem
            simp only [Option.some.injEq] at hitem
            subst hitem
            exact Or.inr (by simp)
          · exact Or.inl (by simp [hkk, hit])
      · simp only [Except.ok.injEq, Prod.mk.injEq] at h
        obtain ⟨_, rfl⟩ := h
        exact ⟨fun _ => rfl, fun it hit _ => Or.inl hit⟩
    · rename_i hexp
      split at h
      · split at h
        · simp only [Except.ok.injEq, Prod.mk.injEq] at h
          obtain ⟨_, rfl⟩ := h
          simp only [mapGet_mapDelete]
          constructor
          · intro hne
            simp [hne]
          · intro it hit hlive
            by_cases hkk : k = key2
            · subst hkk
              rw [hit] at hitem
              simp only [Option.some.injEq] at hitem
              subst hitem
              rw [hlive] at hexp
              simp at hexp
            · exact Or.inl (by simp [hkk, hit])
        · simp at h
      · simp at h
  · simp only [Except.ok.injEq, Prod.mk.injEq] at h
    obtain ⟨_, rfl⟩ := h
    exact ⟨fun _ => rfl, fun it hit _ => Or.inl hit⟩

/-- C4. Never-expiring entries. For every state and every key bound to an entry
with ttl at most 0: at every instant Get and ForcedGet of the key return the value
and leave the whole state as it is; a Get or ForcedGet of any key and a sweeper
invocation keep the key bound to the same entry; and a Set (of any key) after which
the key is no longer bound went through the eviction of slot allocation: the
free-slot queue was empty, `(head + 1) % size = tail`, and the key was the one in
the ring cell at tail, which `removeOnIndex` deleted. -/
theorem never_expiring_entry {V : Type} (c : Cache V) (key : String) (it : Item V)
    (hk : mapGet c.items key = some it) (hd : it.ttl ≤ 0) :
    (∀ now forced, get c now key forced = .ok (some it.Val, c)) ∧
    (∀ now key2 forced r c', get c now key2 forced = .ok (r, c') →
      mapGet c'.items key = some it) ∧
    (∀ now c', remove c now = .ok c' → mapGet c'.items key = some it) ∧
    (∀ now key2 (val : V) ttl c', Set c now key2 val ttl = .ok c' →
      mapGet c'.items key = none →
      c.indexPool = [] ∧ (c.head + 1) % c.size = c.tail ∧ c.ring[c.tail]? = some key) := by
  refine ⟨?_, ?_, ?_, ?_⟩
  · intro now forced
    exact get_of_ttl_le c key it now forced hk hd
  · intro now key2 forced r c' h
    have := (get_items h key).2 it hk (expired_false_of_ttl_le it now hd)
    rw [touch_of_ttl_le it now hd] at this
    exact this.elim id id
  · intro now c' h
    rcases (remove_spec h).1 key with e | ⟨_, it2, hit2, hexp2⟩
    · exact e.trans hk
    · rw [hk] at hit2
      simp only [Option.some.injEq] at hit2
      subst hit2
      rw [expired_false_of_ttl_le it now hd] at hexp2
      exact absurd hexp2 (by simp)
  · intro now key2 val ttl c' h hgone
    rcases Set_items_removed h key it hk hgone with hexp | hev
    · rw [expired_false_of_ttl_le it now hd] at hexp
      exact absurd hexp (by simp)
    · exact hev

/-- Witness of `never_expiring_entry`: capacity 2, key a (ttl 5) in slot 1 and key b
(ttl 0) in slot 0; b is read at instant 100, and the Set of a new key c, which
finds the queue empty and `(head + 1) % size = tail`, evicts b from the tail. -/
theorem never_expiring_entry_witness :
    get (⟨false, 2, 2, 1, 0, ["b", "a"], [], 2,
        [("a", ⟨1, 1, 5, 5⟩), ("b", ⟨2, 0, 0, 0⟩)]⟩ : Cache Nat) 100 "b" false
      = .ok (some 2, ⟨false, 2, 2, 1, 0, ["b", "a"], [], 2,
        [("a", ⟨1, 1, 5, 5⟩), ("b", ⟨2, 0, 0, 0⟩)]⟩) ∧
    ((1 + 1) % 2 = 0 ∧ ["b", "a"][0]? = some "b") :=
  ⟨(never_expiring_entry (⟨false, 2, 2, 1, 0, ["b", "a"], [], 2,
        [("a", ⟨1, 1, 5, 5⟩), ("b", ⟨2, 0, 0, 0⟩)]⟩ : Cache Nat) "b" ⟨2, 0, 0, 0⟩ rfl
        (by decide)).1 100 false,
   ((never_expiring_entry (⟨false, 2, 2, 1, 0, ["b", "a"], [], 2,
        [("a", ⟨1, 1, 5, 5⟩), ("b", ⟨2, 0, 0, 0⟩)]⟩ : Cache Nat) "b" ⟨2, 0, 0, 0⟩ rfl
        (by decide)).2.2.2 100 "c" 3 0
        ⟨false, 2, 2, 1, 1, ["c", "a"], [], 2,
          [("a", ⟨1, 1, 5, 5⟩), ("c", ⟨3, 0, 0, 0⟩)]⟩ rfl rfl).2⟩

/-- C8 at a concrete run: capacity 2 (window 2), a is set with ttl 5 and b with ttl 0.
The sweeper at instant 10 deletes a and clears ring cell 1, but unlike `get`, which
queues the slot it frees, it does not put the slot into the free-slot queue. The
Set of c at instant 11 therefore finds the queue empty and `(head + 1) % size =
tail`, and slot allocation evicts the live key b from the tail while ring cell 1
holds the empty marker. -/
theorem evict_with_empty_cell :
    ∃ c0 c i c1 : Cache Nat, ∃ index : Nat,
      New (fun _ => 1) ⟨2, false⟩ = .ok c0 ∧
      run c0 [.set 0 "a" 1 5, .set 0 "b" 2 0, .sweep 10] = .ok c ∧
      c.ring = ["b", ""] ∧ mapGet c.items "b" = some ⟨2, 0, 0, 0⟩ ∧
      getIndex c = .ok (index, i) ∧ mapGet i.items "b" = none ∧
      Set c 11 "c" 3 0 = .ok c1 ∧ mapGet c1.items "b" = none :=
  ⟨⟨false, 2, 2, 0, 1, ["", ""], [], 2, []⟩,
   ⟨false, 2, 2, 1, 0, ["b", ""], [], 2, [("b", ⟨2, 0, 0, 0⟩)]⟩,
   ⟨false, 2, 2, 1, 1, ["", ""], [], 2, []⟩,
   ⟨false, 2, 2, 1, 1, ["c", ""], [], 2, [("c", ⟨3, 0, 0, 0⟩)]⟩,
   0, rfl, rfl, rfl, rfl, rfl, rfl, rfl, rfl⟩

/-- The test under which slot allocation evicts. Whenever `getIndex` removes a key
from the Index, the free-slot queue is empty, `(head + 1) % size = tail`, the key
removed is the one in the ring cell at tail and the slot handed out is that old
tail. The test does not look at the cells. -/
theorem evict_only_when_head_meets_tail {V : Type} (c c1 : Cache V) (index : Nat)
    (key : String) (it : Item V) (h : getIndex c = .ok (index, c1))
    (hk : mapGet c.items key = some it) (hgone : mapGet c1.items key = none) :
    c.indexPool = [] ∧ (c.head + 1) % c.size = c.tail ∧ index = c.tail ∧
      c.ring[c.tail]? = some key := by
  rcases getIndex_items h key with e | ⟨_, h1, h2, h3, h4⟩
  · rw [hgone, hk] at e
    exact absurd e (by simp)
  · exact ⟨h1, h2, h3, h4⟩

/-- Witness of `evict_only_when_head_meets_tail`: capacity 2 with b in slot 0 at the
tail and cell 1 empty; the allocation evicts b. -/
theorem evict_only_when_head_meets_tail_witness :
    getIndex (⟨false, 2, 2, 1, 0, ["b", ""], [], 2, [("b", ⟨2, 0, 0, 0⟩)]⟩ : Cache Nat)
      = .ok (0, ⟨false, 2, 2, 1, 1, ["", ""], [], 2, []⟩) ∧
    (([] : List Nat) = [] ∧ (1 + 1) % 2 = 0 ∧ 0 = 0 ∧ ["b", ""][0]? = some "b") :=
  ⟨rfl, evict_only_when_head_meets_tail
    (⟨false, 2, 2, 1, 0, ["b", ""], [], 2, [("b", ⟨2, 0, 0, 0⟩)]⟩ : Cache Nat)
    ⟨false, 2, 2, 1, 1, ["", ""], [], 2, []⟩ 0 "b" ⟨2, 0, 0, 0⟩ rfl rfl rfl⟩

/-! ## Runs on a cache of capacity 2

`getIndex` advances only `tail` in its eviction branch, so after the first
eviction `head` is again allowed to move and hands out a slot whose cell still
holds a bound key. The runs below start from `New` with `MaxSize = 2`; the window
is `floor(log2 2) + 1 = 2`. -/

/-- C1 at a concrete run: capacity 2, four Sets of distinct keys. The fourth Set
takes slot 1 from `head` although key a still lives there, and the Index ends with
the three keys a, c, d. -/
theorem capacity_bound_exceeded :
    ∃ c0 c : Cache Nat,
      New (fun _ => 1) ⟨2, false⟩ = .ok c0 ∧
      run c0 [.set 0 "a" 1 0, .set 0 "b" 2 0, .set 0 "c" 3 0, .set 0 "d" 4 0] = .ok c ∧
      c.size = 2 ∧ c.items.map Prod.fst = ["a", "c", "d"] ∧ c.items.length = 3 ∧
      c.ring = ["c", "d"] :=
  ⟨⟨false, 2, 2, 0, 1, ["", ""], [], 2, []⟩,
   ⟨false, 2, 2, 0, 1, ["c", "d"], [], 2,
     [("a", ⟨1, 1, 0, 0⟩), ("c", ⟨3, 0, 0, 0⟩), ("d", ⟨4, 1, 0, 0⟩)]⟩,
   rfl, rfl, rfl, rfl, rfl, rfl⟩

/-- C2 at a concrete run: capacity 2, after the Sets of a, b, c, d the key a records
slot 1 whose cell holds d. `Set a 99` then takes the relocation branch, evicts d and
returns without storing: the Get right after it returns the old value 1. -/
theorem set_lost_update :
    ∃ c0 c c1 : Cache Nat,
      New (fun _ => 1) ⟨2, false⟩ = .ok c0 ∧
      run c0 [.set 0 "a" 1 0, .set 0 "b" 2 0, .set 0 "c" 3 0, .set 0 "d" 4 0] = .ok c ∧
      Set c 0 "a" 99 0 = .ok c1 ∧
      Get c1 0 "a" = .ok (some 1, c1) ∧ mapGet c1.items "d" = none :=
  ⟨⟨false, 2, 2, 0, 1, ["", ""], [], 2, []⟩,
   ⟨false, 2, 2, 0, 1, ["c", "d"], [], 2,
     [("a", ⟨1, 1, 0, 0⟩), ("c", ⟨3, 0, 0, 0⟩), ("d", ⟨4, 1, 0, 0⟩)]⟩,
   ⟨false, 2, 2, 0, 0, ["c", "d"], [], 2,
     [("a", ⟨1, 1, 0, 0⟩), ("c", ⟨3, 0, 0, 0⟩)]⟩,
   rfl, rfl, rfl, rfl, rfl⟩

/-- C5 at a concrete run: capacity 2, distinct never-expiring keys a, b, c set in
that order. The first Set lands in slot 1 and moves tail to 0, the second lands in
slot 0, so the third Set evicts b from the tail while a, inserted before b, stays
in the Index. -/
theorem eviction_out_of_order :
    ∃ c0 c c1 : Cache Nat,
      New (fun _ => 1) ⟨2, false⟩ = .ok c0 ∧
      run c0 [.set 0 "a" 1 0, .set 0 "b" 2 0] = .ok c ∧
      mapGet c.items "a" = some ⟨1, 1, 0, 0⟩ ∧ mapGet c.items "b" = some ⟨2, 0, 0, 0⟩ ∧
      c.indexPool = [] ∧ c.ring = ["b", "a"] ∧
      Set c 0 "c" 3 0 = .ok c1 ∧
      mapGet c1.items "b" = none ∧ mapGet c1.items "a" = some ⟨1, 1, 0, 0⟩ :=
  ⟨⟨false, 2, 2, 0, 1, ["", ""], [], 2, []⟩,
   ⟨false, 2, 2, 1, 0, ["b", "a"], [], 2, [("a", ⟨1, 1, 0, 0⟩), ("b", ⟨2, 0, 0, 0⟩)]⟩,
   ⟨false, 2, 2, 1, 1, ["c", "a"], [], 2, [("a", ⟨1, 1, 0, 0⟩), ("c", ⟨3, 0, 0, 0⟩)]⟩,
   rfl, rfl, rfl, rfl, rfl, rfl, rfl, rfl, rfl⟩

/-- C7 at a concrete run: capacity 2, after the Sets of a, b, c, d the Index binds a
to slot 1 while ring cell 1 holds d, and a and d record the same slot. -/
theorem index_ring_mismatch :
    ∃ c0 c : Cache Nat,
      New (fun _ => 1) ⟨2, false⟩ = .ok c0 ∧
      run c0 [.set 0 "a" 1 0, .set 0 "b" 2 0, .set 0 "c" 3 0, .set 0 "d" 4 0] = .ok c ∧
      mapGet c.items "a" = some ⟨1, 1, 0, 0⟩ ∧ c.ring[1]? = some "d" ∧
      mapGet c.items "d" = some ⟨4, 1, 0, 0⟩ :=
  ⟨⟨false, 2, 2, 0, 1, ["", ""], [], 2, []⟩,
   ⟨false, 2, 2, 0, 1, ["c", "d"], [], 2,
     [("a", ⟨1, 1, 0, 0⟩), ("c", ⟨3, 0, 0, 0⟩), ("d", ⟨4, 1, 0, 0⟩)]⟩,
   rfl, rfl, rfl, rfl, rfl⟩

/-- C9 at a concrete run: capacity 2, the keys a, b, c, d are set at instant 0 with
ttl 1, which leaves three keys in the Index. At instant 2 the Gets of a and c find
them expired and fill the free-slot queue with 2 indices; the Get of d finds d
expired as well and its send on the full queue blocks with the lock held. -/
theorem get_blocks_on_full_queue :
    ∃ c0 c : Cache Nat,
      New (fun _ => 1) ⟨2, false⟩ = .ok c0 ∧
      run c0 [.set 0 "a" 1 1, .set 0 "b" 2 1, .set 0 "c" 3 1, .set 0 "d" 4 1,
        .get 2 "a", .get 2 "c"] = .ok c ∧
      c.indexPool = [1, 0] ∧ c.indexPoolCap = 2 ∧ c.size = 2 ∧
      mapGet c.items "d" = some ⟨4, 1, 1, 1⟩ ∧ (⟨4, 1, 1, 1⟩ : Item Nat).expired 2 = true ∧
      Get c 2 "d" = .error .sendBlocks ∧ ForcedGet c 2 "d" = .error .sendBlocks :=
  ⟨⟨false, 2, 2, 0, 1, ["", ""], [], 2, []⟩,
   ⟨false, 2, 2, 0, 1, ["", ""], [1, 0], 2, [("d", ⟨4, 1, 1, 1⟩)]⟩,
   rfl, rfl, rfl, rfl, rfl, rfl, rfl, rfl, rfl⟩

/-- C3 at a concrete run: capacity 2, the keys a, b, c, d are set at instant 0 with
ttl 1, so each expiry is 0 + 1 = 1, and a, c, d stay in the Index. At instant 2 the
Gets of a and d return absent and queue slot 1 twice, which fills the free-slot
queue. Key c is then bound with positive ttl and `2 > 1`, but Get of c does not
return absent: it blocks on the send with the lock held and never returns. -/
theorem expired_get_never_returns :
    ∃ c0 c1 c2 c3 : Cache Nat,
      New (fun _ => 1) ⟨2, false⟩ = .ok c0 ∧
      run c0 [.set 0 "a" 1 1, .set 0 "b" 2 1, .set 0 "c" 3 1, .set 0 "d" 4 1] = .ok c1 ∧
      Get c1 2 "a" = .ok (none, c2) ∧ Get c2 2 "d" = .ok (none, c3) ∧
      mapGet c3.items "c" = some ⟨3, 0, 1, 1⟩ ∧
      (newItem 0 3 0 1 : Item Nat) = ⟨3, 0, 1, 1⟩ ∧ (1 : Int) < 2 ∧
      c3.indexPool.length = c3.indexPoolCap ∧
      Get c3 2 "c" = .error .sendBlocks :=
  ⟨⟨false, 2, 2, 0, 1, ["", ""], [], 2, []⟩,
   ⟨false, 2, 2, 0, 1, ["c", "d"], [], 2,
     [("a", ⟨1, 1, 1, 1⟩), ("c", ⟨3, 0, 1, 1⟩), ("d", ⟨4, 1, 1, 1⟩)]⟩,
   ⟨false, 2, 2, 0, 1, ["c", ""], [1], 2, [("c", ⟨3, 0, 1, 1⟩), ("d", ⟨4, 1, 1, 1⟩)]⟩,
   ⟨false, 2, 2, 0, 1, ["c", ""], [1, 1], 2, [("c", ⟨3, 0, 1, 1⟩)]⟩,
   rfl, rfl, rfl, rfl, rfl, rfl, by decide, rfl, rfl⟩

/-! ## Filling a fresh cache -/

theorem Set_new_key {V : Type} {c c1 : Cache V} {index : Nat} (now : Int) (key : String)
    (val : V) (ttl : Int) (hnew : mapGet c.items key = none)
    (hgi : getIndex c = .ok (index, c1)) (hi : index < c1.ring.length) :
    Set c now key val ttl = .ok { c1 with
      ring := c1.ring.set index key
      items := mapSet c1.items key (newItem now val index ttl) } := by
  simp [Set, hnew, hgi, hi]

theorem Set_filling {V : Type} {n m : Nat} {c : Cache V} (hf : Filling n m c) (hm : m < n)
    (now : Int) (key : String) (val : V) (hnew : mapGet c.items key = none) :
    ∃ c' index, Set c now key val 0 = .ok c' ∧ Filling n (m + 1) c' ∧
      c'.items = mapSet c.items key ⟨val, index, 0, 0⟩ := by
  obtain ⟨hs, hr, hp, h1, h2⟩ := hf
  have hn0 : ¬ c.size = 0 := by omega
  have hcases : m + 3 ≤ n ∨ m + 2 = n ∨ (n = 1 ∧ m = 0) ∨ (m + 1 = n ∧ 2 ≤ n) := by omega
  rcases hcases with hA | hB | hC | hD
  · obtain ⟨hh, ht, hcell⟩ := h1 (Or.inl (by omega))
    have hmod : (c.head + 1) % c.size = m + 1 := by
      rw [hh, hs]
      exact Nat.mod_eq_of_lt (by omega)
    have hgi : getIndex c = .ok (c.head, { c with head := (c.head + 1) % c.size }) := by
      have hne : ¬ (c.head + 1) % c.size = c.tail := by
        rw [hmod, ht]
        omega
      simp [getIndex, hp, hn0, hne]
    refine ⟨_, c.head, Set_new_key now key val 0 hnew hgi (by simp only; omega), ?_, ?_⟩
    · refine ⟨hs, by simpa using hr, hp, ?_, ?_⟩
      · intro _
        refine ⟨hmod, ht, ?_⟩
        simp only [List.getElem?_set]
        have : ¬ c.head = n - 1 := by omega
        simp [this, hcell]
      · intro h
        omega
    · simp [newItem_zero]
  · obtain ⟨hh, ht, hcell⟩ := h1 (Or.inl (by omega))
    have hmod : (c.head + 1) % c.size = c.tail := by
      rw [hh, hs, ht]
      have : m + 1 = n - 1 := by omega
      rw [this]
      exact Nat.mod_eq_of_lt (by omega)
    have htl : (c.tail + 1) % c.size = 0 := by
      rw [ht, hs]
      have : n - 1 + 1 = n := by omega
      rw [this]
      exact Nat.mod_self n
    have hcell2 : c.ring[c.tail]? = some "" := by
      rw [ht]
      exact hcell
    have hgi : getIndex c = .ok (c.tail, { c with tail := (c.tail + 1) % c.size }) := by
      simp [getIndex, hp, hn0, hmod, removeOnIndex, hcell2]
    refine ⟨_, c.tail, Set_new_key now key val 0 hnew hgi (by simp only; omega), ?_, ?_⟩
    · refine ⟨hs, by simpa using hr, hp, ?_, ?_⟩
      · intro h
        omega
      · intro _
        exact ⟨show c.head = n - 2 by omega, htl⟩
    · simp [newItem_zero]
  · obtain ⟨hh, ht, hcell⟩ := h1 (Or.inr hC)
    obtain ⟨hn1, hm0⟩ := hC
    have hmod : (c.head + 1) % c.size = c.tail := by
      rw [hs, hn1, ht, hn1]
      exact Nat.mod_one _
    have hcell2 : c.ring[c.tail]? = some "" := by
      rw [ht]
      exact hcell
    have hgi : getIndex c = .ok (c.tail, { c with tail := (c.tail + 1) % c.size }) := by
      simp [getIndex, hp, hn0, hmod, removeOnIndex, hcell2]
    refine ⟨_, c.tail, Set_new_key now key val 0 hnew hgi (by simp only; omega), ?_, ?_⟩
    · refine ⟨hs, by simpa using hr, hp, ?_, ?_⟩
      · intro h
        omega
      · intro h
        omega
    · simp [newItem_zero]
  · obtain ⟨hh, ht⟩ := h2 hD
    have hmod : (c.head + 1) % c.size = n - 1 := by
      rw [hh, hs]
      have : n - 2 + 1 = n - 1 := by omega
      rw [this]
      exact Nat.mod_eq_of_lt (by omega)
    have hgi : getIndex c = .ok (c.head, { c with head := (c.head + 1) % c.size }) := by
      have hne : ¬ (c.head + 1) % c.size = c.tail := by
        rw [hmod, ht]
        omega
      simp [getIndex, hp, hn0, hne]
    refine ⟨_, c.head, Set_new_key now key val 0 hnew hgi (by simp only; omega), ?_, ?_⟩
    · refine ⟨hs, by simpa using hr, hp, ?_, ?_⟩
      · intro h
        omega
      · intro h
        omega
    · simp [newItem_zero]

theorem New_filling {V : Type} (floorLog2 : Nat → Int) (refresh : Bool) (n : Nat)
    (hn : 1 ≤ n) :
    ∃ c0 : Cache V, New floorLog2 ⟨n, refresh⟩ = .ok c0 ∧ Filling n 0 c0 ∧ c0.items = [] := by
  have hn0 : ¬ n = 0 := by omega
  refine ⟨⟨refresh, floorLog2 n + 1, n, 0, n - 1, List.replicate n "", [], n, []⟩,
    by simp only [New, hn0, if_false], ?_, rfl⟩
  refine ⟨rfl, by simp, rfl, ?_, ?_⟩
  · intro _
    refine ⟨rfl, rfl, ?_⟩
    simp only [List.getElem?_replicate]
    have : n - 1 < n := by omega
    simp [this]
  · intro h
    omega

theorem run_filling {V : Type} (n : Nat) :
    ∀ (l : List (Int × String × V)) (m : Nat) (c : Cache V), Filling n m c →
      m + l.length ≤ n → (l.map fun p => p.2.1).Nodup →
      (∀ p ∈ l, mapGet c.items p.2.1 = none) →
      ∃ c', run c (l.map setForever) = .ok c' ∧ Filling n (m + l.length) c' ∧
        (∀ k it, mapGet c.items k = some it → mapGet c'.items k = some it) ∧
        (∀ p ∈ l, ∃ i, mapGet c'.items p.2.1 = some ⟨p.2.2, i, 0, 0⟩) := by
  intro l
  induction l with
  | nil =>
    intro m c hf _ _ _
    exact ⟨c, rfl, hf, fun _ _ h => h, fun p hp => absurd hp (List.not_mem_nil p)⟩
  | cons p l ih =>
    intro m c hf hlen hnd hnew
    simp only [List.length_cons] at hlen
    simp only [List.map_cons, List.nodup_cons, List.mem_map, not_exists, not_and] at hnd
    obtain ⟨hpl, hndl⟩ := hnd
    obtain ⟨c1, index, hset, hf1, hitems⟩ :=
      Set_filling hf (by omega) p.1 p.2.1 p.2.2 (hnew p (List.mem_cons_self _ _))
    have hnew1 : ∀ q ∈ l, mapGet c1.items q.2.1 = none := by
      intro q hq
      have hne : ¬ q.2.1 = p.2.1 := hpl q hq
      rw [hitems, mapGet_mapSet]
      simp only [hne, if_false]
      exact hnew q (List.mem_cons_of_mem _ hq)
    obtain ⟨c', hrun, hf', hkeep, hall⟩ := ih (m + 1) c1 hf1 (by omega) hndl hnew1
    refine ⟨c', ?_, ?_, ?_, ?_⟩
    · simp only [List.map_cons, run, step, setForever]
      rw [hset]
      exact hrun
    · have : m + (l.length + 1) = m + 1 + l.length := by omega
      simp only [List.length_cons]
      rw [this]
      exact hf'
    · intro k it hk
      apply hkeep
      rw [hitems, mapGet_mapSet]
      have hne : ¬ k = p.2.1 := by
        intro h
        rw [h, hnew p (List.mem_cons_self _ _)] at hk
        exact absurd hk (by simp)
      simp only [hne, if_false]
      exact hk
    · intro q hq
      rcases List.mem_cons.mp hq with rfl | hq
      · refine ⟨index, hkeep _ _ ?_⟩
        rw [hitems, mapGet_mapSet]
        simp
      · exact hall q hq

/-- C6. A fresh cache of capacity n holds n keys. For every n at least 1 and every n
pairwise-distinct keys set one after another with ttl 0 (at any instants) on the
cache built by `New` with `MaxSize = n`: the Sets all return, and after each of
them a Get (at any instant) of every key set so far returns the value set for it
and leaves the state as it is; so no key is evicted, and after the n-th Set every
one of the n keys is read back. -/
theorem fresh_cache_holds_n_keys {V : Type} (floorLog2 : Nat → Int) (refresh : Bool)
    (n : Nat) (hn : 1 ≤ n) (kvs : List (Int × String × V)) (hlen : kvs.length = n)
    (hnd : (kvs.map fun p => p.2.1).Nodup) :
    ∃ c0 : Cache V, New floorLog2 ⟨n, refresh⟩ = .ok c0 ∧
      ∀ j, j ≤ n → ∃ c, run c0 ((kvs.take j).map setForever) = .ok c ∧
        ∀ p ∈ kvs.take j, ∀ now, Get c now p.2.1 = .ok (some p.2.2, c) := by
  obtain ⟨c0, hnew, hf, hitems⟩ := New_filling (V := V) floorLog2 refresh n hn
  refine ⟨c0, hnew, ?_⟩
  intro j hj
  have hsub : ((kvs.take j).map fun p => p.2.1).Nodup :=
    List.Nodup.sublist ((List.take_sublist j kvs).map _) hnd
  have hl : 0 + (kvs.take j).length ≤ n := by
    simp only [List.length_take]
    omega
  obtain ⟨c, hrun, _, _, hall⟩ := run_filling n (kvs.take j) 0 c0 hf hl hsub
    (by
      intro p _
      rw [hitems]
      rfl)
  refine ⟨c, hrun, ?_⟩
  intro p hp now
  obtain ⟨i, hi⟩ := hall p hp
  exact get_of_ttl_le c p.2.1 ⟨p.2.2, i, 0, 0⟩ now false hi (le_refl _)

/-- Witness of `fresh_cache_holds_n_keys`: capacity 2 with refresh on read, keys a
and b as in the test of the package. -/
theorem fresh_cache_holds_n_keys_witness :
    ∃ c0 : Cache Nat, New (fun _ => 1) ⟨2, true⟩ = .ok c0 ∧
      ∀ j, j ≤ 2 → ∃ c,
        run c0 (([((0 : Int), "a", 1), (0, "b", 2)].take j).map setForever) = .ok c ∧
        ∀ p ∈ [((0 : Int), "a", 1), (0, "b", 2)].take j, ∀ now,
          Get c now p.2.1 = .ok (some p.2.2, c) :=
  fresh_cache_holds_n_keys (fun _ => 1) true 2 (by decide) [(0, "a", 1), (0, "b", 2)] rfl
    (by decide)

/-! ## Bounds kept by every run -/

theorem New_inBounds {V : Type} {floorLog2 : Nat → Int} {options : Options} {c : Cache V}
    (h : New floorLog2 options = .ok c) : InBounds c := by
  unfold New at h
  split at h
  · simp at h
  · rename_i hn
    simp only [Except.ok.injEq] at h
    subst h
    refine ⟨by simp only; omega, by simp, by simp only; omega, by simp only; omega, rfl, ?_, ?_⟩
    · intro k it hk
      simp [mapGet] at hk
    · intro i hi
      simp at hi

theorem touch_index {V : Type} (it : Item V) (now : Int) : (it.touch now).index = it.index := by
  unfold Item.touch
  split <;> rfl

theorem newItem_index {V : Type} (now : Int) (val : V) (index : Nat) (ttl : Int) :
    (newItem now val index ttl).index = index := by
  simp [newItem, touch_index]

theorem get_inBounds {V : Type} {c c' : Cache V} {now : Int} {key : String} {forced : Bool}
    {r : Option V} (hb : InBounds c) (h : get c now key forced = .ok (r, c')) :
    InBounds c' := by
  obtain ⟨b1, b2, b3, b4, b5, b6, b7⟩ := hb
  unfold get at h
  split at h
  · rename_i item hitem
    split at h
    · split at h
      · simp only [Except.ok.injEq, Prod.mk.injEq] at h
        obtain ⟨_, rfl⟩ := h
        refine ⟨b1, b2, b3, b4, b5, ?_, b7⟩
        intro k it hk
        simp only [mapGet_mapSet] at hk
        split at hk
        · simp only [Option.some.injEq] at hk
          subst hk
          rw [touch_index]
          exact b6 _ _ hitem
        · exact b6 _ _ hk
      · simp only [Except.ok.injEq, Prod.mk.injEq] at h
        obtain ⟨_, rfl⟩ := h
        exact ⟨b1, b2, b3, b4, b5, b6, b7⟩
    · split at h
      · split at h
        · simp only [Except.ok.injEq, Prod.mk.injEq] at h
          obtain ⟨_, rfl⟩ := h
          refine ⟨b1, by simpa using b2, b3, b4, b5, ?_, ?_⟩
          · intro k it hk
            simp only [mapGet_mapDelete] at hk
            split at hk
            · simp at hk
            · exact b6 _ _ hk
          · intro i hi
            simp only [List.mem_append, List.mem_singleton] at hi
            rcases hi with hi | rfl
            · exact b7 i hi
            · exact b6 _ _ hitem
        · simp at h
      · simp at h
  · simp only [Except.ok.injEq, Prod.mk.injEq] at h
    obtain ⟨_, rfl⟩ := h
    exact ⟨b1, b2, b3, b4, b5, b6, b7⟩

theorem removeOnIndex_inBounds {V : Type} {c c1 : Cache V} {index : Nat} (hb : InBounds c)
    (h : removeOnIndex c index = .ok c1) : InBounds c1 := by
  obtain ⟨b1, b2, b3, b4, b5, b6, b7⟩ := hb
  unfold removeOnIndex at h
  split at h
  · simp at h
  · split at h
    · simp only [Except.ok.injEq] at h
      subst h
      exact ⟨b1, b2, b3, b4, b5, b6, b7⟩
    · split at h
      · simp only [Except.ok.injEq] at h
        subst h
        exact ⟨b1, by simpa using b2, b3, b4, b5, b6, b7⟩
      · simp only [Except.ok.injEq] at h
        subst h
        refine ⟨b1, by simpa using b2, b3, b4, b5, ?_, b7⟩
        intro k it hk
        simp only [mapGet_mapDelete] at hk
        split at hk
        · simp at hk
        · exact b6 _ _ hk

theorem getIndex_inBounds {V : Type} {c c1 : Cache V} {index : Nat} (hb : InBounds c)
    (h : getIndex c = .ok (index, c1)) : InBounds c1 ∧ index < c1.size := by
  have hb0 := hb
  obtain ⟨b1, b2, b3, b4, b5, b6, b7⟩ := hb
  unfold getIndex at h
  split at h
  · rename_i i rest hpool
    simp only [Except.ok.injEq, Prod.mk.injEq] at h
    obtain ⟨rfl, rfl⟩ := h
    refine ⟨⟨b1, b2, b3, b4, b5, b6, ?_⟩, ?_⟩
    · intro j hj
      exact b7 j (by rw [hpool]; exact List.mem_cons_of_mem _ hj)
    · exact b7 i (by rw [hpool]; exact List.mem_cons_self _ _)
  · split at h
    · simp at h
    · split at h
      · simp only [Except.ok.injEq, Prod.mk.injEq] at h
        obtain ⟨rfl, rfl⟩ := h
        exact ⟨⟨b1, b2, Nat.mod_lt _ b1, b4, b5, b6, b7⟩, b3⟩
      · split at h
        · simp at h
        · rename_i c2 hrem
          simp only [Except.ok.injEq, Prod.mk.injEq] at h
          obtain ⟨rfl, rfl⟩ := h
          have hb2 : InBounds { c with tail := (c.tail + 1) % c.size } :=
            ⟨b1, b2, b3, Nat.mod_lt _ b1, b5, b6, b7⟩
          have hb3 := removeOnIndex_inBounds hb2 hrem
          refine ⟨hb3, ?_⟩
          have hsize : c2.size = c.size := by
            unfold removeOnIndex at hrem
            split at hrem
            · simp at hrem
            · split at hrem
              · simp only [Except.ok.injEq] at hrem
                subst hrem
                rfl
              · split at hrem <;>
                · simp only [Except.ok.injEq] at hrem
                  subst hrem
                  rfl
          rw [hsize]
          exact b4

theorem Set_inBounds {V : Type} {c c' : Cache V} {now : Int} {key : String} {val : V}
    {ttl : Int} (hb : InBounds c) (h : Set c now key val ttl = .ok c') : InBounds c' := by
  have hb0 := hb
  obtain ⟨b1, b2, b3, b4, b5, b6, b7⟩ := hb
  unfold Set at h
  split at h
  · rename_i item hitem
    split at h
    · simp at h
    · split at h
      · simp only [Except.ok.injEq] at h
        subst h
        refine ⟨b1, b2, b3, b4, b5, ?_, b7⟩
        intro k it hk
        simp only [mapGet_mapSet] at hk
        split at hk
        · simp only [Option.some.injEq] at hk
          subst hk
          rw [newItem_index]
          exact b6 _ _ hitem
        · exact b6 _ _ hk
      · split at h
        · simp only [Except.ok.injEq] at h
          subst h
          exact hb0
        · split at h
          · simp only [Except.ok.injEq] at h
            subst h
            refine ⟨b1, b2, b3, b4, b5, ?_, b7⟩
            intro k it hk
            simp only [mapGet_mapDelete] at hk
            split at hk
            · simp at hk
            · exact b6 _ _ hk
          · split at h
            · simp at h
            · rename_i index c1 hget
              obtain ⟨⟨d1, d2, d3, d4, d5, d6, d7⟩, hidx⟩ := getIndex_inBounds hb0 hget
              split at h
              · simp only [Except.ok.injEq] at h
                subst h
                refine ⟨d1, by simpa using d2, d3, d4, d5, ?_, d7⟩
                intro k it hk
                simp only at hk
                split at hk
                · simp only [mapGet_mapSet] at hk
                  split at hk
                  · simp only [Option.some.injEq] at hk
                    subst hk
                    exact hidx
                  · exact d6 _ _ hk
                · exact d6 _ _ hk
              · simp at h
  · split at h
    · simp at h
    · rename_i index c1 hget
      obtain ⟨⟨d1, d2, d3, d4, d5, d6, d7⟩, hidx⟩ := getIndex_inBounds hb0 hget
      split at h
      · simp only [Except.ok.injEq] at h
        subst h
        refine ⟨d1, by simpa using d2, d3, d4, d5, ?_, d7⟩
        intro k it hk
        simp only [mapGet_mapSet] at hk
        split at hk
        · simp only [Option.some.injEq] at hk
          subst hk
          rw [newItem_index]
          exact hidx
        · exact d6 _ _ hk
      · simp at h

theorem sweepPass_index {V : Type} {now : Int} (w : Nat) :
    ∀ {c c1 : Cache V} {index index1 count count1 : Nat},
      sweepPass now w c index count = .ok (c1, index1, count1) → index < c.size →
      index1 < c.size := by
  induction w with
  | zero =>
    intro c c1 index index1 count count1 h hi
    simp only [sweepPass, Except.ok.injEq, Prod.mk.injEq] at h
    obtain ⟨_, rfl, _⟩ := h
    exact hi
  | succ w ih =>
    intro c c1 index index1 count count1 h hi
    simp only [sweepPass] at h
    split at h
    · simp at h
    · rename_i c2 count2 hslot
      split at h
      · simp at h
      · rename_i hne
        obtain ⟨_, f1, _, _, _⟩ := sweepSlot_spec hslot
        obtain ⟨_, _, fs, _, _, _, _⟩ := f1
        have := ih h (Nat.mod_lt _ (by omega))
        omega

theorem removeLoop_inBounds {V : Type} {now : Int} (fuel : Nat) :
    ∀ {c c1 : Cache V}, InBounds c → removeLoop now fuel c = .ok c1 → InBounds c1 := by
  induction fuel with
  | zero =>
    intro c c1 _ h
    simp [removeLoop] at h
  | succ fuel ih =>
    intro c c1 hb h
    obtain ⟨b1, b2, b3, b4, b5, b6, b7⟩ := hb
    simp only [removeLoop] at h
    split at h
    · simp at h
    · rename_i c2 index count hpass
      obtain ⟨s1, f1, _, _, _⟩ := sweepPass_spec _ hpass
      have hidx := sweepPass_index _ hpass b4
      obtain ⟨_, _, fs, fh, fp, fc, fr⟩ := f1
      have hb2 : InBounds { c2 with tail := index } := by
        refine ⟨fs ▸ b1, by simp only; omega, by simp only; omega, by simp only; omega,
          by simp only; omega, ?_, ?_⟩
        · intro k it hk
          simp only at hk
          rcases s1 k with e | ⟨e, _⟩
          · rw [fs]
            exact b6 k it (e ▸ hk)
          · rw [e] at hk
            exact absurd hk (by simp)
        · intro i hi
          simp only at hi
          rw [fp] at hi
          rw [fs]
          exact b7 i hi
      split at h
      · simp only [Except.ok.injEq] at h
        subst h
        exact hb2
      · exact ih hb2 h

theorem step_inBounds {V : Type} {c c' : Cache V} {op : Op V} (hb : InBounds c)
    (h : step c op = .ok c') : InBounds c' := by
  cases op with
  | set now key val ttl => exact Set_inBounds hb h
  | get now key =>
    simp only [step, Get] at h
    cases hg : get c now key false with
    | error e => simp [hg, Except.map] at h
    | ok r =>
      simp only [hg, Except.map, Except.ok.injEq] at h
      exact get_inBounds hb (h ▸ hg : get c now key false = .ok (r.1, c'))
  | forcedGet now key =>
    simp only [step, ForcedGet] at h
    cases hg : get c now key true with
    | error e => simp [hg, Except.map] at h
    | ok r =>
      simp only [hg, Except.map, Except.ok.injEq] at h
      exact get_inBounds hb (h ▸ hg : get c now key true = .ok (r.1, c'))
  | sweep now => exact removeLoop_inBounds _ hb h

theorem run_inBounds {V : Type} (ops : List (Op V)) :
    ∀ {c c' : Cache V}, InBounds c → run c ops = .ok c' → InBounds c' := by
  induction ops with
  | nil =>
    intro c c' hb h
    simp only [run, Except.ok.injEq] at h
    exact h ▸ hb
  | cons op ops ih =>
    intro c c' hb h
    simp only [run] at h
    split at h
    · simp at h
    · rename_i c1 hstep
      exact ih (step_inBounds hb hstep) h

/-- Every reachable state is in bounds; in particular every slot recorded in the
Index is a cell of the ring. -/
theorem reachable_inBounds {V : Type} {floorLog2 : Nat → Int} {options : Options}
    {c : Cache V} (h : Reachable floorLog2 options c) : InBounds c := by
  obtain ⟨c0, ops, hnew, hrun⟩ := h
  exact run_inBounds ops (New_inBounds hnew) hrun

/-! ## Reads that keep the entry, and construction -/

/-- C13. Refresh on read. For every state and every key bound to an entry that is
not expired at `now`, Get returns the value. When the cache refreshes on read and
the ttl is positive, the only change is that the entry of the key gets the expiry
`now + ttl` (value, slot and ttl as before, all other bindings, ring, queue, head
and tail as before); when the cache does not refresh, or the ttl is at most 0, the
whole state is as before. -/
theorem refresh_on_read {V : Type} (c : Cache V) (key : String) (it : Item V) (now : Int)
    (hk : mapGet c.items key = some it) (hlive : it.expired now = false) :
    (c.refreshTTL = true → 0 < it.ttl →
      Get c now key = .ok (some it.Val,
        { c with items := mapSet c.items key { it with expireAt := now + it.ttl } }) ∧
      ∀ k, mapGet (mapSet c.items key { it with expireAt := now + it.ttl }) k =
        if k = key then some { it with expireAt := now + it.ttl } else mapGet c.items k) ∧
    ((c.refreshTTL = false ∨ it.ttl ≤ 0) → Get c now key = .ok (some it.Val, c)) := by
  constructor
  · intro hr hd
    refine ⟨?_, fun k => mapGet_mapSet _ _ _ _⟩
    have ht : it.touch now = { it with expireAt := now + it.ttl } := by
      simp [Item.touch, hd]
    simp [Get, get, hk, hlive, hr, ht]
  · intro h
    rcases h with hr | hd
    · simp [Get, get, hk, hlive, hr]
    · exact get_of_ttl_le c key it now false hk hd

/-- Witness of `refresh_on_read`: capacity 2 with refresh on read, key a set at
instant 0 with ttl 5 and read at instant 3; the same state without refresh. -/
theorem refresh_on_read_witness :
    Get (⟨true, 2, 2, 0, 0, ["", "a"], [], 2, [("a", ⟨1, 1, 5, 5⟩)]⟩ : Cache Nat) 3 "a"
      = .ok (some 1, ⟨true, 2, 2, 0, 0, ["", "a"], [], 2, [("a", ⟨1, 1, 5, 8⟩)]⟩) ∧
    Get (⟨false, 2, 2, 0, 0, ["", "a"], [], 2, [("a", ⟨1, 1, 5, 5⟩)]⟩ : Cache Nat) 3 "a"
      = .ok (some 1, ⟨false, 2, 2, 0, 0, ["", "a"], [], 2, [("a", ⟨1, 1, 5, 5⟩)]⟩) :=
  ⟨((refresh_on_read (⟨true, 2, 2, 0, 0, ["", "a"], [], 2, [("a", ⟨1, 1, 5, 5⟩)]⟩ : Cache Nat)
      "a" ⟨1, 1, 5, 5⟩ 3 rfl rfl).1 rfl (by decide)).1,
   (refresh_on_read (⟨false, 2, 2, 0, 0, ["", "a"], [], 2, [("a", ⟨1, 1, 5, 5⟩)]⟩ : Cache Nat)
      "a" ⟨1, 1, 5, 5⟩ 3 rfl rfl).2 (Or.inl rfl)⟩

/-- C16. Idempotent read of an absent key. For every state and every key that is
not bound in the Index, Get and ForcedGet return absent and leave the whole state
(Index, ring, free-slot queue, head, tail) as it is; hence any sequence of such
reads, at any instants, ends in the same state and binds nothing. -/
theorem get_absent_key {V : Type} (c : Cache V) (key : String)
    (hk : mapGet c.items key = none) :
    (∀ now, Get c now key = .ok (none, c)) ∧
    (∀ now, ForcedGet c now key = .ok (none, c)) ∧
    (∀ ops : List (Op V),
      (∀ op ∈ ops, ∃ now, op = .get now key ∨ op = .forcedGet now key) →
      run c ops = .ok c) := by
  have hget : ∀ now forced, get c now key forced = .ok (none, c) := by
    intro now forced
    simp [get, hk]
  refine ⟨fun now => hget now false, fun now => hget now true, ?_⟩
  intro ops
  induction ops with
  | nil =>
    intro _
    rfl
  | cons op ops ih =>
    intro hops
    have htail : run c ops = .ok c := ih (fun o ho => hops o (List.mem_cons_of_mem _ ho))
    obtain ⟨now, h | h⟩ := hops op (List.mem_cons_self _ _)
    · subst h
      simp only [run, step, Get, hget now false, Except.map]
      exact htail
    · subst h
      simp only [run, step, ForcedGet, hget now true, Except.map]
      exact htail

/-- Witness of `get_absent_key`: the first read of the test of the package, on the
fresh cache of capacity 2, repeated. -/
theorem get_absent_key_witness :
    Get (⟨true, 2, 2, 0, 1, ["", ""], [], 2, []⟩ : Cache Nat) 0 "a"
      = .ok (none, ⟨true, 2, 2, 0, 1, ["", ""], [], 2, []⟩) ∧
    run (⟨true, 2, 2, 0, 1, ["", ""], [], 2, []⟩ : Cache Nat)
      [.get 0 "a", .forcedGet 1 "a", .get 2 "a"]
      = .ok ⟨true, 2, 2, 0, 1, ["", ""], [], 2, []⟩ :=
  ⟨(get_absent_key (⟨true, 2, 2, 0, 1, ["", ""], [], 2, []⟩ : Cache Nat) "a" rfl).1 0,
   (get_absent_key (⟨true, 2, 2, 0, 1, ["", ""], [], 2, []⟩ : Cache Nat) "a" rfl).2.2
      [.get 0 "a", .forcedGet 1 "a", .get 2 "a"] (by
        intro op hop
        simp only [List.mem_cons, List.mem_singleton, List.not_mem_nil, or_false] at hop
        rcases hop with rfl | rfl | rfl
        · exact ⟨0, Or.inl rfl⟩
        · exact ⟨1, Or.inr rfl⟩
        · exact ⟨2, Or.inl rfl⟩)⟩

/-- C17 as stated fails. `MaxSize = 2 ^ 63` is positive, but `New` does not return a
cache for it: the length is not representable as an `int` (and is above the
`2 ^ 44` strings that the runtime allocates on 64-bit Linux), so
`make([]string, MaxSize)` panics. -/
theorem new_panics_on_large_size :
    0 < 2 ^ 63 ∧
    (NewAlloc (2 ^ 44) (fun n => (Nat.log 2 n : Int)) ⟨2 ^ 63, false⟩ :
      Except MakeFault (Except Error (Cache Nat))) = .error .makeFails ∧
    ¬ ∃ c : Cache Nat,
      NewAlloc (2 ^ 44) (fun n => (Nat.log 2 n : Int)) ⟨2 ^ 63, false⟩ = .ok (.ok c) := by
  have h : (NewAlloc (2 ^ 44) (fun n => (Nat.log 2 n : Int)) ⟨2 ^ 63, false⟩ :
      Except MakeFault (Except Error (Cache Nat))) = .error .makeFails := by
    simp only [NewAlloc]
    norm_num
  refine ⟨by norm_num, h, ?_⟩
  rintro ⟨c, hc⟩
  rw [h] at hc
  exact absurd hc (by simp)

/-- C17, amended. `New` returns `ErrMaxSizeIsZero` (and no cache) exactly when
`MaxSize` is 0. For every `MaxSize = N > 0` that is not above the largest length
`maxLen` that `make` accepts, it returns a cache of capacity N with N empty ring
cells, an empty Index, an empty free-slot queue of capacity N, `head = 0`,
`tail = N - 1`, the given refresh flag, and the window `floorLog2 N + 1`, where
`floorLog2 N` is the value `int(math.Floor(math.Log2(float64(N))))` of the library;
wherever that value is the floor of the binary logarithm of N the window is
`floor(log2 N) + 1`, which is 5 for N = 16. For N above `maxLen` the allocation in
`make` fails and `New` returns neither a cache nor an error. -/
theorem new_construction {V : Type} (maxLen : Nat) (floorLog2 : Nat → Int)
    (options : Options) :
    ((NewAlloc maxLen floorLog2 options : Except MakeFault (Except Error (Cache V))) =
      .ok (.error .ErrMaxSizeIsZero) ↔ options.MaxSize = 0) ∧
    (0 < options.MaxSize → options.MaxSize ≤ maxLen →
      ∃ c : Cache V, NewAlloc maxLen floorLog2 options = .ok (.ok c) ∧
        c.size = options.MaxSize ∧ c.ring = List.replicate options.MaxSize "" ∧
        c.ring.length = options.MaxSize ∧ (∀ cell ∈ c.ring, cell = "") ∧
        c.items = [] ∧ c.indexPool = [] ∧ c.indexPoolCap = options.MaxSize ∧
        c.head = 0 ∧ c.tail = options.MaxSize - 1 ∧
        c.refreshTTL = options.RefreshTTL ∧
        c.w = floorLog2 options.MaxSize + 1 ∧
        (floorLog2 options.MaxSize = Nat.log 2 options.MaxSize →
          c.w = Nat.log 2 options.MaxSize + 1) ∧
        (options.MaxSize = 16 → floorLog2 16 = Nat.log 2 16 → c.w = 5)) ∧
    (maxLen < options.MaxSize →
      (NewAlloc maxLen floorLog2 options : Except MakeFault (Except Error (Cache V))) =
        .error .makeFails) := by
  refine ⟨?_, ?_, ?_⟩
  · constructor
    · intro h
      by_contra hne
      by_cases hlen : maxLen < options.MaxSize
      · simp [NewAlloc, hne, hlen] at h
      · simp [NewAlloc, New, hne, hlen] at h
    · intro h
      simp [NewAlloc, h]
  · intro hpos hle
    have hne : ¬ options.MaxSize = 0 := by omega
    have hlen : ¬ maxLen < options.MaxSize := by omega
    refine ⟨⟨options.RefreshTTL, floorLog2 options.MaxSize + 1, options.MaxSize, 0,
      options.MaxSize - 1, List.replicate options.MaxSize "", [], options.MaxSize, []⟩,
      by simp only [NewAlloc, New, hne, hlen, if_false], rfl, rfl, by simp, ?_, rfl, rfl,
      rfl, rfl, rfl, rfl, rfl, ?_, ?_⟩
    · intro cell hcell
      exact List.eq_of_mem_replicate hcell
    · intro h
      simp only [h]
    · intro h16 hlog
      have h4 : Nat.log 2 16 = 4 := by
        rw [show (16 : Nat) = 2 ^ 4 by norm_num]
        exact Nat.log_pow (by norm_num) 4
      simp only [h16, hlog, h4]
      norm_num
  · intro hlen
    have hne : ¬ options.MaxSize = 0 := by omega
    simp [NewAlloc, hne, hlen]

/-- Witness of `new_construction`: capacity 16 with the exact logarithm as the
library value and the bound of 64-bit Linux; the window is 5. Capacity 0 is refused
with the error, and for capacity `2 ^ 50` the allocation fails. -/
theorem new_construction_witness :
    (∃ c : Cache Nat,
      NewAlloc (2 ^ 44) (fun n => (Nat.log 2 n : Int)) ⟨16, true⟩ = .ok (.ok c) ∧
      c.size = 16 ∧ c.ring.length = 16 ∧ c.head = 0 ∧ c.tail = 15 ∧ c.w = 5) ∧
    (NewAlloc (2 ^ 44) (fun n => (Nat.log 2 n : Int)) ⟨0, true⟩ :
      Except MakeFault (Except Error (Cache Nat))) = .ok (.error .ErrMaxSizeIsZero) ∧
    (NewAlloc (2 ^ 44) (fun n => (Nat.log 2 n : Int)) ⟨2 ^ 50, true⟩ :
      Except MakeFault (Except Error (Cache Nat))) = .error .makeFails := by
  obtain ⟨c, h1, h2, _, h4, _, _, _, _, h9, h10, _, _, _, h14⟩ :=
    (new_construction (V := Nat) (2 ^ 44) (fun n => (Nat.log 2 n : Int)) ⟨16, true⟩).2.1
      (by decide) (by norm_num)
  exact ⟨⟨c, h1, h2, h4, h9, h10, h14 rfl rfl⟩,
    (new_construction (V := Nat) (2 ^ 44) (fun n => (Nat.log 2 n : Int)) ⟨0, true⟩).1.2 rfl,
    (new_construction (V := Nat) (2 ^ 44) (fun n => (Nat.log 2 n : Int)) ⟨2 ^ 50, true⟩).2.2
      (by norm_num)⟩

/-! ## Keys without a ring cell

The sweeper finds entries through the ring. A key that is bound in the Index but
held by no ring cell, as left behind when `getIndex` hands out an occupied slot,
is out of its reach. -/

theorem sweepSlot_unringed {V : Type} {c c1 : Cache V} {now : Int} {index count count1 : Nat}
    (h : sweepSlot c now index count = .ok (c1, count1)) (k : String) (hk : k ∉ c.ring)
    (hne : k ≠ "") : mapGet c1.items k = mapGet c.items k ∧ k ∉ c1.ring := by
  have hset : k ∉ c.ring.set index "" := by
    intro hmem
    rcases List.mem_or_eq_of_mem_set hmem with h1 | h1
    · exact hk h1
    · exact hne h1
  unfold sweepSlot at h
  split at h
  · simp at h
  · rename_i key hkey
    split at h
    · simp only [Except.ok.injEq, Prod.mk.injEq] at h
      obtain ⟨rfl, _⟩ := h
      exact ⟨rfl, hk⟩
    · split at h
      · simp only [Except.ok.injEq, Prod.mk.injEq] at h
        obtain ⟨rfl, _⟩ := h
        exact ⟨rfl, hset⟩
      · split at h
        · simp only [Except.ok.injEq, Prod.mk.injEq] at h
          obtain ⟨rfl, _⟩ := h
          exact ⟨rfl, hk⟩
        · simp only [Except.ok.injEq, Prod.mk.injEq] at h
          obtain ⟨rfl, _⟩ := h
          refine ⟨?_, hset⟩
          have hkk : ¬ k = key := by
            intro e
            subst e
            exact hk (List.getElem?_mem hkey)
          simp [mapGet_mapDelete, hkk]

theorem sweepPass_unringed {V : Type} {now : Int} (w : Nat) :
    ∀ {c c1 : Cache V} {index index1 count count1 : Nat},
      sweepPass now w c index count = .ok (c1, index1, count1) →
      ∀ k, k ∉ c.ring → k ≠ "" → mapGet c1.items k = mapGet c.items k ∧ k ∉ c1.ring := by
  induction w with
  | zero =>
    intro c c1 index index1 count count1 h k hk _
    simp only [sweepPass, Except.ok.injEq, Prod.mk.injEq] at h
    obtain ⟨rfl, _, _⟩ := h
    exact ⟨rfl, hk⟩
  | succ w ih =>
    intro c c1 index index1 count count1 h k hk hne
    simp only [sweepPass] at h
    split at h
    · simp at h
    · rename_i c2 count2 hslot
      split at h
      · simp at h
      · obtain ⟨e1, r1⟩ := sweepSlot_unringed hslot k hk hne
        obtain ⟨e2, r2⟩ := ih h k r1 hne
        exact ⟨e2.trans e1, r2⟩

theorem removeLoop_unringed {V : Type} {now : Int} (fuel : Nat) :
    ∀ {c c1 : Cache V}, removeLoop now fuel c = .ok c1 →
      ∀ k, k ∉ c.ring → k ≠ "" → mapGet c1.items k = mapGet c.items k ∧ k ∉ c1.ring := by
  induction fuel with
  | zero =>
    intro c c1 h
    simp [removeLoop] at h
  | succ fuel ih =>
    intro c c1 h k hk hne
    simp only [removeLoop] at h
    split at h
    · simp at h
    · rename_i c2 index count hpass
      obtain ⟨e1, r1⟩ := sweepPass_unringed _ hpass k hk hne
      split at h
      · simp only [Except.ok.injEq] at h
        subst h
        exact ⟨e1, r1⟩
      · obtain ⟨e2, r2⟩ := ih h k r1 hne
        exact ⟨e2.trans e1, r2⟩

/-- No number of sweeper invocations changes the binding of a key that no ring
cell holds. -/
theorem sweeps_unringed {V : Type} (times : List Int) :
    ∀ {c c1 : Cache V}, run c (times.map Op.sweep) = .ok c1 →
      ∀ k, k ∉ c.ring → k ≠ "" → mapGet c1.items k = mapGet c.items k := by
  induction times with
  | nil =>
    intro c c1 h k _ _
    simp only [List.map_nil, run, Except.ok.injEq] at h
    rw [h]
  | cons t times ih =>
    intro c c1 h k hk hne
    simp only [List.map_cons, run] at h
    split at h
    · simp at h
    · rename_i c2 hstep
      obtain ⟨e1, r1⟩ := removeLoop_unringed _ (hstep : remove c t = .ok c2) k hk hne
      exact (ih h k r1 hne).trans e1

/-- C11 at a concrete run: capacity 16 with window 5, eighteen Sets of distinct keys
with ttl 1 at instant 0. The eighteenth Set takes slot 15 from `head` although k15
lives there, so k15 stays bound with no ring cell. With every ttl elapsed, four
sweeper invocations at instant 2 (more than four passes) clear the whole ring and
leave k15 in the Index, and so does any number of further invocations at any
instants. -/
theorem sweeper_leaves_orphan :
    ∃ c0 c c4 : Cache Nat,
      New (fun _ => 4) ⟨16, false⟩ = .ok c0 ∧ c0.w = 5 ∧
      run c0 [
        .set 0 "k1" 1 1, .set 0 "k2" 2 1, .set 0 "k3" 3 1, .set 0 "k4" 4 1, .set 0 "k5"
        5 1, .set 0 "k6" 6 1, .set 0 "k7" 7 1, .set 0 "k8" 8 1, .set 0 "k9" 9 1, .set 0
        "k10" 10 1, .set 0 "k11" 11 1, .set 0 "k12" 12 1, .set 0 "k13" 13 1, .set 0
        "k14" 14 1, .set 0 "k15" 15 1, .set 0 "k16" 16 1, .set 0 "k17" 17 1, .set 0
        "k18" 18 1] = .ok c ∧
      (∀ p ∈ c.items, p.2.expired 2 = true) ∧
      run c [.sweep 2, .sweep 2, .sweep 2, .sweep 2] = .ok c4 ∧
      c4.items = [("k15", ⟨15, 15, 1, 1⟩)] ∧
      ∀ (times : List Int) (c' : Cache Nat), run c (times.map Op.sweep) = .ok c' →
        mapGet c'.items "k15" = some ⟨15, 15, 1, 1⟩ :=
  ⟨⟨false, 5, 16, 0, 15, List.replicate 16 "", [], 16, []⟩,
   ⟨false, 5, 16, 0, 1,
     ["k17", "k2", "k3", "k4", "k5", "k6", "k7", "k8", "k9", "k10", "k11", "k12", "k13",
     "k14", "k16", "k18"],
     [], 16,
     [
      ("k2", ⟨2, 1, 1, 1⟩), ("k3", ⟨3, 2, 1, 1⟩), ("k4", ⟨4, 3, 1, 1⟩), ("k5", ⟨5, 4, 1,
      1⟩), ("k6", ⟨6, 5, 1, 1⟩), ("k7", ⟨7, 6, 1, 1⟩), ("k8", ⟨8, 7, 1, 1⟩), ("k9", ⟨9, 8,
      1, 1⟩), ("k10", ⟨10, 9, 1, 1⟩), ("k11", ⟨11, 10, 1, 1⟩), ("k12", ⟨12, 11, 1, 1⟩),
      ("k13", ⟨13, 12, 1, 1⟩), ("k14", ⟨14, 13, 1, 1⟩), ("k15", ⟨15, 15, 1, 1⟩), ("k16",
      ⟨16, 14, 1, 1⟩), ("k17", ⟨17, 0, 1, 1⟩), ("k18", ⟨18, 15, 1, 1⟩)]⟩,
   ⟨false, 5, 16, 0, 4, List.replicate 16 "", [], 16, [("k15", ⟨15, 15, 1, 1⟩)]⟩,
   rfl, rfl, rfl, by decide, rfl, rfl,
   fun times c' h => (sweeps_unringed times h "k15" (by decide) (by decide)).trans rfl⟩

/-! ## Forced reads and recycled slots -/

/-- A read that finds its key expired, with room in the free-slot queue and the
recorded slot inside the ring: ForcedGet returns the stored value where Get returns
absent, both unbind the key, and the next read of the key returns absent and
leaves the state alone. -/
theorem get_expired_then_absent {V : Type} (c : Cache V) (key : String) (it : Item V)
    (now : Int) (forced : Bool) (hk : mapGet c.items key = some it)
    (hexp : it.expired now = true) (hroom : c.indexPool.length < c.indexPoolCap)
    (hidx : it.index < c.ring.length) :
    ∃ c', get c now key forced = .ok (if forced then some it.Val else none, c') ∧
      mapGet c'.items key = none ∧
      ∀ now2 forced2, get c' now2 key forced2 = .ok (none, c') := by
  refine ⟨{ c with
    indexPool := c.indexPool ++ [it.index]
    ring := c.ring.set it.index ""
    items := mapDelete c.items key }, ?_, ?_, ?_⟩
  · simp [get, hk, hexp, hroom, hidx]
  · simp [mapGet_mapDelete]
  · intro now2 forced2
    simp [get, mapGet_mapDelete]

/-- C12 at a concrete run: capacity 2, the keys a, b, c, d are set at instant 0 with
ttl 1, which leaves a, c, d in the Index. At instant 2 the forced reads of a and c
return their stale values 1 and 3 and fill the free-slot queue; d is then in the
Index and expired, but the forced read of d blocks on the full queue instead of
returning 4. -/
theorem forced_get_blocks :
    ∃ c0 c1 c2 c3 : Cache Nat,
      New (fun _ => 1) ⟨2, false⟩ = .ok c0 ∧
      run c0 [.set 0 "a" 1 1, .set 0 "b" 2 1, .set 0 "c" 3 1, .set 0 "d" 4 1] = .ok c1 ∧
      ForcedGet c1 2 "a" = .ok (some 1, c2) ∧
      ForcedGet c2 2 "c" = .ok (some 3, c3) ∧
      mapGet c3.items "d" = some ⟨4, 1, 1, 1⟩ ∧ (⟨4, 1, 1, 1⟩ : Item Nat).expired 2 = true ∧
      c3.indexPool.length = c3.indexPoolCap ∧
      ForcedGet c3 2 "d" = .error .sendBlocks :=
  ⟨⟨false, 2, 2, 0, 1, ["", ""], [], 2, []⟩,
   ⟨false, 2, 2, 0, 1, ["c", "d"], [], 2,
     [("a", ⟨1, 1, 1, 1⟩), ("c", ⟨3, 0, 1, 1⟩), ("d", ⟨4, 1, 1, 1⟩)]⟩,
   ⟨false, 2, 2, 0, 1, ["c", ""], [1], 2, [("c", ⟨3, 0, 1, 1⟩), ("d", ⟨4, 1, 1, 1⟩)]⟩,
   ⟨false, 2, 2, 0, 1, ["", ""], [1, 0], 2, [("d", ⟨4, 1, 1, 1⟩)]⟩,
   rfl, rfl, rfl, rfl, rfl, rfl, rfl, rfl⟩

/-- C14 at a concrete run: n = 2 and num = 0, keys named as in the benchmark of the
package. Key 0 (ttl 1000) lands in slot 1, because the first Set of a cache of
capacity 2 already takes the eviction branch, and key 1 lands in slot 0. After the
ttl has elapsed Get of key 0 returns absent and queues slot 1; the Set of the new
key a is bound to slot 1, so ring cell `num = 0` still holds key 1, not a. Nothing
is evicted and the Get of a returns its value. -/
theorem recycled_slot_elsewhere :
    ∃ c0 c1 c2 c3 : Cache Nat,
      New (fun _ => 1) ⟨2, true⟩ = .ok c0 ∧
      run c0 [.set 0 "0" 0 1000, .set 0 "1" 1 0] = .ok c1 ∧
      c1.ring = ["1", "0"] ∧
      Get c1 2000 "0" = .ok (none, c2) ∧ c2.indexPool = [1] ∧
      Set c2 2000 "a" 99 0 = .ok c3 ∧
      c3.ring[0]? = some "1" ∧ c3.ring[1]? = some "a" ∧
      mapGet c3.items "a" = some ⟨99, 1, 0, 0⟩ ∧ mapGet c3.items "1" = some ⟨1, 0, 0, 0⟩ ∧
      Get c3 2000 "a" = .ok (some 99, c3) :=
  ⟨⟨true, 2, 2, 0, 1, ["", ""], [], 2, []⟩,
   ⟨true, 2, 2, 1, 0, ["1", "0"], [], 2, [("0", ⟨0, 1, 1000, 1000⟩), ("1", ⟨1, 0, 0, 0⟩)]⟩,
   ⟨true, 2, 2, 1, 0, ["1", ""], [1], 2, [("1", ⟨1, 0, 0, 0⟩)]⟩,
   ⟨true, 2, 2, 1, 0, ["1", "a"], [], 2, [("1", ⟨1, 0, 0, 0⟩), ("a", ⟨99, 1, 0, 0⟩)]⟩,
   rfl, rfl, rfl, rfl, rfl, rfl, rfl, rfl, rfl, rfl, rfl⟩

/-- C15 at a concrete run: capacity 2, after the Sets of a, b, c, d (ttl 1) the keys
a and d both record slot 1. At instant 2 the Gets of a and d each queue slot 1; the
Set of e takes the first copy and writes e into ring cell 1, while the second copy
of slot 1 is still in the free-slot queue. -/
theorem queued_slot_occupied :
    ∃ c0 c : Cache Nat,
      New (fun _ => 1) ⟨2, false⟩ = .ok c0 ∧
      run c0 [.set 0 "a" 1 1, .set 0 "b" 2 1, .set 0 "c" 3 1, .set 0 "d" 4 1,
        .get 2 "a", .get 2 "d", .set 2 "e" 5 0] = .ok c ∧
      c.indexPool = [1] ∧ c.ring[1]? = some "e" :=
  ⟨⟨false, 2, 2, 0, 1, ["", ""], [], 2, []⟩,
   ⟨false, 2, 2, 0, 1, ["c", "e"], [1], 2, [("c", ⟨3, 0, 1, 1⟩), ("e", ⟨5, 1, 0, 0⟩)]⟩,
   rfl, rfl, rfl, rfl⟩

/-! ## The sweep, pass by pass -/

theorem slotsFrom_succ (size index w : Nat) (hi : index < size) :
    slotsFrom size index (w + 1) = index :: slotsFrom size ((index + 1) % size) w := by
  unfold slotsFrom
  rw [List.range_succ_eq_map, List.map_cons, List.map_map]
  have h0 : (index + 0) % size = index := by
    rw [Nat.add_zero]
    exact Nat.mod_eq_of_lt hi
  rw [h0]
  congr 1
  apply List.map_congr_left
  intro j _
  simp only [Function.comp]
  rw [Nat.mod_add_mod]
  congr 1
  omega

theorem sweepSlot_eq_examineSlot {V : Type} (c : Cache V) (now : Int) (index count : Nat)
    (hi : index < c.ring.length) :
    sweepSlot c now index count =
      .ok ((examineSlot now c index).1, count + (examineSlot now c index).2) := by
  have hget : c.ring[index]? = some (c.ring[index]) := List.getElem?_eq_getElem hi
  unfold sweepSlot examineSlot
  rw [hget]
  simp only
  split
  · rfl
  · split
    · rfl
    · rename_i item hitem
      cases hexp : item.expired now <;> simp

theorem examineSlot_frame {V : Type} (c : Cache V) (now : Int) (index : Nat) :
    Frame c (examineSlot now c index).1 ∧ (examineSlot now c index).1.tail = c.tail := by
  unfold examineSlot
  split
  · exact ⟨frame_refl _, rfl⟩
  · split
    · exact ⟨frame_refl _, rfl⟩
    · split
      · exact ⟨⟨rfl, rfl, rfl, rfl, rfl, rfl, by simp⟩, rfl⟩
      · split
        · exact ⟨⟨rfl, rfl, rfl, rfl, rfl, rfl, by simp⟩, rfl⟩
        · exact ⟨frame_refl _, rfl⟩

theorem sweepPass_eq_examineSlots {V : Type} (now : Int) (w : Nat) :
    ∀ (c : Cache V) (index count : Nat), c.ring.length = c.size → index < c.size →
      sweepPass now w c index count =
        .ok ((examineSlots now (slotsFrom c.size index w) c count).1,
          (index + w) % c.size,
          (examineSlots now (slotsFrom c.size index w) c count).2) := by
  induction w with
  | zero =>
    intro c index count _ hi
    simp only [sweepPass, slotsFrom, List.range_zero, List.map_nil, examineSlots,
      Nat.add_zero, Nat.mod_eq_of_lt hi]
  | succ w ih =>
    intro c index count hr hi
    obtain ⟨⟨_, _, fs, _, _, _, fr⟩, _⟩ := examineSlot_frame c now index
    have hne : ¬ (examineSlot now c index).1.size = 0 := by omega
    have hmod : (index + 1) % c.size < c.size := Nat.mod_lt _ (by omega)
    simp only [sweepPass, sweepSlot_eq_examineSlot c now index count (by omega), hne, if_false]
    rw [ih _ _ _ (by omega) (by rw [fs]; exact hmod), fs, slotsFrom_succ _ _ _ hi]
    simp only [examineSlots]
    have hidx : ((index + 1) % c.size + w) % c.size = (index + (w + 1)) % c.size := by
      rw [Nat.mod_add_mod]
      congr 1
      omega
    rw [hidx]

/-- In a state in bounds one pass of the code, followed by `c.tail = index`, is the
pass of the wording. -/
theorem sweepPass_eq_specPass {V : Type} (c : Cache V) (now : Int) (hb : InBounds c) :
    sweepPass now c.w.toNat c c.tail 0 =
      .ok ((examineSlots now (windowSlots c) c 0).1, (specPass now c).1.tail,
        (specPass now c).2) := by
  obtain ⟨_, b2, _, b4, _, _, _⟩ := hb
  exact sweepPass_eq_examineSlots now c.w.toNat c c.tail 0 b2 b4

theorem sweepPass_inBounds {V : Type} {now : Int} {w : Nat} {c c1 : Cache V}
    {index count : Nat} (hb : InBounds c)
    (hpass : sweepPass now w c c.tail 0 = .ok (c1, index, count)) :
    InBounds { c1 with tail := index } := by
  obtain ⟨b1, b2, b3, b4, b5, b6, b7⟩ := hb
  obtain ⟨s1, f1, _, _, _⟩ := sweepPass_spec _ hpass
  have hidx := sweepPass_index _ hpass b4
  obtain ⟨_, _, fs, fh, fp, fc, fr⟩ := f1
  refine ⟨fs ▸ b1, by simp only; omega, by simp only; omega, by simp only; omega,
    by simp only; omega, ?_, ?_⟩
  · intro k it hk
    simp only at hk
    rcases s1 k with e | ⟨e, _⟩
    · rw [fs]
      exact b6 k it (e ▸ hk)
    · rw [e] at hk
      exact absurd hk (by simp)
  · intro i hi
    simp only at hi
    rw [fp] at hi
    rw [fs]
    exact b7 i hi

theorem specPass_inBounds {V : Type} (c : Cache V) (now : Int) (hb : InBounds c) :
    InBounds (specPass now c).1 :=
  sweepPass_inBounds hb (sweepPass_eq_specPass c now hb)

theorem examineSlots_frame {V : Type} (now : Int) (slots : List Nat) :
    ∀ (c : Cache V) (count : Nat),
      Frame c (examineSlots now slots c count).1 ∧
        (examineSlots now slots c count).1.tail = c.tail := by
  induction slots with
  | nil =>
    intro c count
    exact ⟨frame_refl _, rfl⟩
  | cons i slots ih =>
    intro c count
    obtain ⟨f1, t1⟩ := examineSlot_frame c now i
    obtain ⟨f2, t2⟩ := ih (examineSlot now c i).1 (count + (examineSlot now c i).2)
    exact ⟨frame_trans f1 f2, t2.trans t1⟩

theorem examineSlot_ring {V : Type} (c : Cache V) (now : Int) (i j : Nat) (hij : j ≠ i) :
    (examineSlot now c i).1.ring[j]? = c.ring[j]? := by
  have hset : (c.ring.set i "")[j]? = c.ring[j]? := by
    rw [List.getElem?_set]
    simp [hij.symm]
  unfold examineSlot
  split
  · rfl
  · split
    · rfl
    · split
      · exact hset
      · split
        · exact hset
        · rfl

/-- Cells outside the examined slots are left untouched. -/
theorem examineSlots_ring {V : Type} (now : Int) (slots : List Nat) :
    ∀ (c : Cache V) (count j : Nat), j ∉ slots →
      (examineSlots now slots c count).1.ring[j]? = c.ring[j]? := by
  induction slots with
  | nil =>
    intro c count j _
    rfl
  | cons i slots ih =>
    intro c count j hj
    simp only [List.mem_cons, not_or] at hj
    simp only [examineSlots]
    rw [ih _ _ j hj.2]
    exact examineSlot_ring c now i j hj.1

theorem removePasses_eq_specSweep {V : Type} (now : Int) (fuel : Nat) :
    ∀ (c : Cache V), InBounds c →
      removePasses now fuel c =
        match specSweep now fuel c with
        | some r => .ok r
        | none => .error .loopsForever := by
  induction fuel with
  | zero =>
    intro c _
    rfl
  | succ fuel ih =>
    intro c hb
    have hw : (specPass now c).1.w = c.w :=
      (examineSlots_frame now (windowSlots c) c 0).1.2.1
    have hstep : removePasses now (fuel + 1) c =
        if 4 * ((specPass now c).2 : Int) < (specPass now c).1.w then
          .ok ((specPass now c).1, 1)
        else
          match removePasses now fuel (specPass now c).1 with
          | .error e => .error e
          | .ok (c2, passes) => .ok (c2, passes + 1) := by
      rw [removePasses, sweepPass_eq_specPass c now hb]
      rfl
    rw [hstep, hw, ih (specPass now c).1 (specPass_inBounds c now hb)]
    simp only [specSweep]
    by_cases hc : c.w ≤ 4 * ((specPass now c).2 : Int)
    · have hlt : ¬ 4 * ((specPass now c).2 : Int) < c.w := by omega
      simp only [hc, hlt, if_true, if_false]
      cases specSweep now fuel (specPass now c).1 with
      | none => rfl
      | some r => rfl
    · have hlt : 4 * ((specPass now c).2 : Int) < c.w := by omega
      simp only [hc, hlt, if_true, if_false]

theorem removeLoop_eq_removePasses {V : Type} (now : Int) (fuel : Nat) :
    ∀ (c : Cache V), removeLoop now fuel c = (removePasses now fuel c).map Prod.fst := by
  induction fuel with
  | zero =>
    intro c
    rfl
  | succ fuel ih =>
    intro c
    simp only [removeLoop, removePasses]
    cases hpass : sweepPass now c.w.toNat c c.tail 0 with
    | error e => rfl
    | ok r =>
      obtain ⟨c1, index, count⟩ := r
      simp only
      split
      · rfl
      · rw [ih]
        cases removePasses now fuel { c1 with tail := index } with
        | error e => rfl
        | ok q => rfl

theorem removePasses_bounds {V : Type} (now : Int) (fuel : Nat) :
    ∀ {c c' : Cache V} {passes : Nat}, removePasses now fuel c = .ok (c', passes) →
      1 ≤ passes ∧ passes ≤ fuel := by
  induction fuel with
  | zero =>
    intro c c' passes h
    simp [removePasses] at h
  | succ fuel ih =>
    intro c c' passes h
    simp only [removePasses] at h
    split at h
    · simp at h
    · split at h
      · simp only [Except.ok.injEq, Prod.mk.injEq] at h
        omega
      · split at h
        · simp at h
        · rename_i c2 p2 hrec
          simp only [Except.ok.injEq, Prod.mk.injEq] at h
          have := ih hrec
          omega

/-- More fuel does not change the outcome of a sweep that returns. -/
theorem removePasses_mono {V : Type} (now : Int) (fuel : Nat) :
    ∀ {c : Cache V} {r : Cache V × Nat}, removePasses now fuel c = .ok r →
      ∀ fuel2, fuel ≤ fuel2 → removePasses now fuel2 c = .ok r := by
  induction fuel with
  | zero =>
    intro c r h
    simp [removePasses] at h
  | succ fuel ih =>
    intro c r h fuel2 hle
    obtain ⟨f, rfl⟩ : ∃ f, fuel2 = f + 1 := ⟨fuel2 - 1, by omega⟩
    simp only [removePasses] at h
    split at h
    · simp at h
    · rename_i c1 index count hpass
      simp only [removePasses, hpass]
      split at h
      · rename_i hlt
        simp only [hlt, if_true]
        exact h
      · rename_i hlt
        simp only [hlt, if_false]
        split at h
        · simp at h
        · rename_i c2 p2 hrec
          rw [ih hrec f (by omega)]
          exact h

theorem sweepSlot_fault {V : Type} {c : Cache V} {now : Int} {index count : Nat} {e : Fault}
    (h : sweepSlot c now index count = .error e) : e ≠ .loopsForever := by
  unfold sweepSlot at h
  split at h
  · simp only [Except.error.injEq] at h
    subst h
    decide
  · split at h
    · simp at h
    · split at h
      · simp at h
      · split at h <;> simp at h

theorem sweepPass_fault {V : Type} {now : Int} (w : Nat) :
    ∀ {c : Cache V} {index count : Nat} {e : Fault},
      sweepPass now w c index count = .error e → e ≠ .loopsForever := by
  induction w with
  | zero =>
    intro c index count e h
    simp [sweepPass] at h
  | succ w ih =>
    intro c index count e h
    simp only [sweepPass] at h
    split at h
    · rename_i e2 hslot
      simp only [Except.error.injEq] at h
      subst h
      exact sweepSlot_fault hslot
    · split at h
      · simp only [Except.error.injEq] at h
        subst h
        decide
      · exact ih h

/-- With a positive window the loop of the sweeper ends within one pass more than
there are bindings, in every state: it returns or stops on a fault of a slot
access, and never exhausts that many passes. -/
theorem removeLoop_never_spins {V : Type} (now : Int) (fuel : Nat) :
    ∀ (c : Cache V), 0 < c.w → c.items.length < fuel →
      removeLoop now fuel c ≠ .error .loopsForever := by
  induction fuel with
  | zero =>
    intro c _ hf
    omega
  | succ fuel ih =>
    intro c hw hf
    simp only [removeLoop]
    cases hpass : sweepPass now c.w.toNat c c.tail 0 with
    | error e =>
      simp only
      intro h
      simp only [Except.error.injEq] at h
      exact sweepPass_fault _ hpass h
    | ok r =>
      obtain ⟨c1, index, count⟩ := r
      obtain ⟨_, f1, _, hlen, _⟩ := sweepPass_spec _ hpass
      obtain ⟨_, fw, _, _, _, _, _⟩ := f1
      simp only
      by_cases hc : 4 * (count : Int) < c1.w
      · simp [hc]
      · simp only [hc, if_false]
        apply ih
        · exact fw ▸ hw
        · simp only
          rw [fw] at hc
          omega

/-- C19. Sweep pass semantics. In every state in bounds (every reachable state is),
one pass of `remove` at `now` examines exactly the `w` consecutive slots
`tail, tail + 1, ..., tail + w - 1` (mod N) in that order; at each of them it clears
a cell whose key is missing from the Index, clears the cell and deletes the entry
of a key expired at `now` (counting it), and leaves anything else untouched; then
it sets `tail` to `(tail + w) mod N`. Cells outside the window, `head` and the
free-slot queue are unchanged, and a binding is changed only by deleting an
expired one. One invocation is a sequence of `p ≥ 1` such passes, another pass
following exactly when `4 * count ≥ w`; with a positive window it returns the state
this sequence ends in. -/
theorem sweep_pass_semantics {V : Type} (c : Cache V) (now : Int) (hb : InBounds c) :
    ((windowSlots c).length = c.w.toNat ∧
      ∀ j, j < c.w.toNat → (windowSlots c)[j]? = some ((c.tail + j) % c.size)) ∧
    sweepPass now c.w.toNat c c.tail 0 =
      .ok ((examineSlots now (windowSlots c) c 0).1, (c.tail + c.w.toNat) % c.size,
        (specPass now c).2) ∧
    (∀ j, j ∉ windowSlots c → (specPass now c).1.ring[j]? = c.ring[j]?) ∧
    Swept now c.items (specPass now c).1.items ∧
    (specPass now c).1.tail = (c.tail + c.w.toNat) % c.size ∧
    (specPass now c).1.head = c.head ∧ (specPass now c).1.indexPool = c.indexPool ∧
    (∀ fuel, removePasses now fuel c =
      match specSweep now fuel c with
      | some r => .ok r
      | none => .error .loopsForever) ∧
    (0 < c.w → ∃ c' passes, remove c now = .ok c' ∧
      specSweep now (c.items.length + 1) c = some (c', passes) ∧ 1 ≤ passes ∧
      c'.head = c.head ∧ c'.indexPool = c.indexPool) := by
  have hpass := sweepPass_eq_specPass c now hb
  obtain ⟨hsw, hfr, _, _, _⟩ := sweepPass_spec _ hpass
  refine ⟨⟨?_, ?_⟩, hpass, ?_, hsw, rfl, hfr.2.2.2.1, hfr.2.2.2.2.1,
    fun fuel => removePasses_eq_specSweep now fuel c hb, ?_⟩
  · simp [windowSlots, slotsFrom]
  · intro j hj
    simp [windowSlots, slotsFrom, List.getElem?_map, List.getElem?_range hj]
  · intro j hj
    exact examineSlots_ring now (windowSlots c) c 0 j hj
  · intro hw
    have hb0 := hb
    obtain ⟨b1, b2, _, b4, _, _, _⟩ := hb
    obtain ⟨c', hrem⟩ := remove_ok c now hw b1 (by omega) (by omega)
    obtain ⟨_, hfr2⟩ := remove_spec hrem
    have hloop : removeLoop now (c.items.length + 1) c = .ok c' := hrem
    rw [removeLoop_eq_removePasses] at hloop
    cases hp : removePasses now (c.items.length + 1) c with
    | error e => simp [hp, Except.map] at hloop
    | ok r =>
      obtain ⟨c2, passes⟩ := r
      simp only [hp, Except.map, Except.ok.injEq] at hloop
      subst hloop
      have hspec := removePasses_eq_specSweep now (c.items.length + 1) c hb0
      rw [hp] at hspec
      refine ⟨c2, passes, hrem, ?_, (removePasses_bounds _ _ hp).1, hfr2.2.2.2.1,
        hfr2.2.2.2.2.1⟩
      cases hs : specSweep now (c.items.length + 1) c with
      | none => simp [hs] at hspec
      | some q =>
        simp only [hs, Except.ok.injEq] at hspec
        rw [hspec]

/-- Witness of `sweep_pass_semantics`: the cache of capacity 2 after `Set a` (ttl 5)
and `Set b` (ttl 0), swept at instant 10. The first pass examines slots 0 and 1,
deletes a and counts 1, so a second pass follows; it removes nothing and ends the
invocation. -/
theorem sweep_pass_semantics_witness :
    windowSlots (⟨false, 2, 2, 1, 0, ["b", "a"], [], 2,
        [("a", ⟨1, 1, 5, 5⟩), ("b", ⟨2, 0, 0, 0⟩)]⟩ : Cache Nat) = [0, 1] ∧
    removePasses 10 3 (⟨false, 2, 2, 1, 0, ["b", "a"], [], 2,
        [("a", ⟨1, 1, 5, 5⟩), ("b", ⟨2, 0, 0, 0⟩)]⟩ : Cache Nat)
      = .ok (⟨false, 2, 2, 1, 0, ["b", ""], [], 2, [("b", ⟨2, 0, 0, 0⟩)]⟩, 2) ∧
    specSweep 10 3 (⟨false, 2, 2, 1, 0, ["b", "a"], [], 2,
        [("a", ⟨1, 1, 5, 5⟩), ("b", ⟨2, 0, 0, 0⟩)]⟩ : Cache Nat)
      = some (⟨false, 2, 2, 1, 0, ["b", ""], [], 2, [("b", ⟨2, 0, 0, 0⟩)]⟩, 2) :=
  ⟨rfl,
   ((sweep_pass_semantics (⟨false, 2, 2, 1, 0, ["b", "a"], [], 2,
        [("a", ⟨1, 1, 5, 5⟩), ("b", ⟨2, 0, 0, 0⟩)]⟩ : Cache Nat) 10
      (reachable_inBounds ⟨⟨false, 2, 2, 0, 1, ["", ""], [], 2, []⟩,
        [.set 0 "a" 1 5, .set 0 "b" 2 0],
        (rfl : New (fun _ => 1) ⟨2, false⟩ = .ok _), rfl⟩)).2.2.2.2.2.2.2.1 3).trans rfl,
   rfl⟩

/-- C20. The repeat loop of the sweeper terminates. For every state with a positive
window (every cache built by `New` has one) and every instant: no pass adds a
binding, a pass removes at least as many bindings as it counts, and a pass that
asks for another one (`4 * count ≥ w`) removes at least one; so `remove` never
needs more than `|Index| + 1` passes. Where the ring is in order it returns, after
`p` passes with `1 ≤ p ≤ |Index| + 1`, and no larger allowance of passes changes
the outcome. -/
theorem sweeper_terminates {V : Type} (c : Cache V) (now : Int) (hw : 0 < c.w) :
    remove c now ≠ .error .loopsForever ∧
    (∀ c1 index count, sweepPass now c.w.toNat c c.tail 0 = .ok (c1, index, count) →
      (∀ k it, mapGet c1.items k = some it → mapGet c.items k = some it) ∧
      c1.items.length + count ≤ c.items.length ∧
      (c.w ≤ 4 * (count : Int) → c1.items.length < c.items.length)) ∧
    (0 < c.size → c.size ≤ c.ring.length → c.tail < c.ring.length →
      ∃ c' passes, remove c now = .ok c' ∧
        removePasses now (c.items.length + 1) c = .ok (c', passes) ∧
        1 ≤ passes ∧ passes ≤ c.items.length + 1 ∧
        ∀ fuel, c.items.length + 1 ≤ fuel → removePasses now fuel c = .ok (c', passes)) := by
  refine ⟨removeLoop_never_spins now _ c hw (Nat.lt_succ_self _), ?_, ?_⟩
  · intro c1 index count hpass
    obtain ⟨hsw, _, _, hlen, _⟩ := sweepPass_spec _ hpass
    refine ⟨?_, by omega, ?_⟩
    · intro k it hk
      rcases hsw k with e | ⟨e, _⟩
      · exact e ▸ hk
      · rw [e] at hk
        exact absurd hk (by simp)
    · intro hc
      omega
  · intro hs hr ht
    obtain ⟨c', hrem⟩ := remove_ok c now hw hs hr ht
    have hloop : removeLoop now (c.items.length + 1) c = .ok c' := hrem
    rw [removeLoop_eq_removePasses] at hloop
    cases hp : removePasses now (c.items.length + 1) c with
    | error e => simp [hp, Except.map] at hloop
    | ok r =>
      obtain ⟨c2, passes⟩ := r
      simp only [hp, Except.map, Except.ok.injEq] at hloop
      subst hloop
      obtain ⟨h1, h2⟩ := removePasses_bounds _ _ hp
      exact ⟨c2, passes, hrem, rfl, h1, h2, fun fuel hf => removePasses_mono _ _ hp fuel hf⟩

/-- Witness of `sweeper_terminates`: the cache of capacity 2 holding a (expired at
instant 10) and b, window 2; the sweep returns after 2 passes, within the 3 that
two bindings allow. -/
theorem sweeper_terminates_witness :
    ∃ c' passes,
      remove (⟨false, 2, 2, 1, 0, ["b", "a"], [], 2,
        [("a", ⟨1, 1, 5, 5⟩), ("b", ⟨2, 0, 0, 0⟩)]⟩ : Cache Nat) 10 = .ok c' ∧
      removePasses 10 (2 + 1) (⟨false, 2, 2, 1, 0, ["b", "a"], [], 2,
        [("a", ⟨1, 1, 5, 5⟩), ("b", ⟨2, 0, 0, 0⟩)]⟩ : Cache Nat) = .ok (c', passes) ∧
      1 ≤ passes ∧ passes ≤ 2 + 1 ∧
      ∀ fuel, 2 + 1 ≤ fuel →
        removePasses 10 fuel (⟨false, 2, 2, 1, 0, ["b", "a"], [], 2,
          [("a", ⟨1, 1, 5, 5⟩), ("b", ⟨2, 0, 0, 0⟩)]⟩ : Cache Nat) = .ok (c', passes) :=
  (sweeper_terminates (⟨false, 2, 2, 1, 0, ["b", "a"], [], 2,
      [("a", ⟨1, 1, 5, 5⟩), ("b", ⟨2, 0, 0, 0⟩)]⟩ : Cache Nat) 10 (by decide)).2.2
    (by decide) (by decide) (by decide)

/-! ## The configuration and the keys of the Index along a run -/

theorem mapDelete_unique {V : Type} (m : List (String × Item V)) (k : String)
    (h : UniqueKeys m) : UniqueKeys (mapDelete m k) :=
  List.Nodup.sublist ((List.filter_sublist m).map Prod.fst) h

theorem mapSet_keys {V : Type} (m : List (String × Item V)) (k : String) (it : Item V) :
    (mapSet m k it).map Prod.fst =
      if k ∈ m.map Prod.fst then m.map Prod.fst else m.map Prod.fst ++ [k] := by
  induction m with
  | nil => simp [mapSet]
  | cons p m ih =>
    obtain ⟨k1, it1⟩ := p
    by_cases h1 : k1 = k
    · subst h1
      simp [mapSet]
    · have h2 : ¬ k = k1 := fun e => h1 e.symm
      simp only [mapSet, h1, if_false, List.map_cons, ih, List.mem_cons, h2, false_or]
      split <;> simp

theorem mapSet_unique {V : Type} (m : List (String × Item V)) (k : String) (it : Item V)
    (h : UniqueKeys m) : UniqueKeys (mapSet m k it) := by
  unfold UniqueKeys at h ⊢
  rw [mapSet_keys]
  split
  · exact h
  · rename_i hk
    rw [List.nodup_append]
    refine ⟨h, List.nodup_singleton k, ?_⟩
    intro a ha hb
    simp only [List.mem_singleton] at hb
    subst hb
    exact hk ha

theorem get_sameConfig {V : Type} {c c' : Cache V} {now : Int} {key : String} {forced : Bool}
    {r : Option V} (h : get c now key forced = .ok (r, c')) :
    SameConfig c c' ∧ (UniqueKeys c.items → UniqueKeys c'.items) := by
  unfold get at h
  split at h
  · split at h
    · split at h
      · simp only [Except.ok.injEq, Prod.mk.injEq] at h
        obtain ⟨_, rfl⟩ := h
        exact ⟨⟨rfl, rfl, rfl, rfl⟩, mapSet_unique _ _ _⟩
      · simp only [Except.ok.injEq, Prod.mk.injEq] at h
        obtain ⟨_, rfl⟩ := h
        exact ⟨⟨rfl, rfl, rfl, rfl⟩, id⟩
    · split at h
      · split at h
        · simp only [Except.ok.injEq, Prod.mk.injEq] at h
          obtain ⟨_, rfl⟩ := h
          exact ⟨⟨rfl, rfl, rfl, rfl⟩, mapDelete_unique _ _⟩
        · simp at h
      · simp at h
  · simp only [Except.ok.injEq, Prod.mk.injEq] at h
    obtain ⟨_, rfl⟩ := h
    exact ⟨⟨rfl, rfl, rfl, rfl⟩, id⟩

theorem removeOnIndex_sameConfig {V : Type} {c c1 : Cache V} {index : Nat}
    (h : removeOnIndex c index = .ok c1) :
    SameConfig c c1 ∧ (UniqueKeys c.items → UniqueKeys c1.items) := by
  unfold removeOnIndex at h
  split at h
  · simp at h
  · split at h
    · simp only [Except.ok.injEq] at h
      subst h
      exact ⟨⟨rfl, rfl, rfl, rfl⟩, id⟩
    · split at h
      · simp only [Except.ok.injEq] at h
        subst h
        exact ⟨⟨rfl, rfl, rfl, rfl⟩, id⟩
      · simp only [Except.ok.injEq] at h
        subst h
        exact ⟨⟨rfl, rfl, rfl, rfl⟩, mapDelete_unique _ _⟩

theorem getIndex_sameConfig {V : Type} {c c1 : Cache V} {index : Nat}
    (h : getIndex c = .ok (index, c1)) :
    SameConfig c c1 ∧ (UniqueKeys c.items → UniqueKeys c1.items) := by
  unfold getIndex at h
  split at h
  · simp only [Except.ok.injEq, Prod.mk.injEq] at h
    obtain ⟨_, rfl⟩ := h
    exact ⟨⟨rfl, rfl, rfl, rfl⟩, id⟩
  · split at h
    · simp at h
    · split at h
      · simp only [Except.ok.injEq, Prod.mk.injEq] at h
        obtain ⟨_, rfl⟩ := h
        exact ⟨⟨rfl, rfl, rfl, rfl⟩, id⟩
      · split at h
        · simp at h
        · rename_i c2 hrem
          simp only [Except.ok.injEq, Prod.mk.injEq] at h
          obtain ⟨_, rfl⟩ := h
          obtain ⟨⟨a1, a2, a3, a4⟩, hu⟩ := removeOnIndex_sameConfig hrem
          exact ⟨⟨a1, a2, a3, a4⟩, hu⟩

theorem Set_sameConfig {V : Type} {c c' : Cache V} {now : Int} {key : String} {val : V}
    {ttl : Int} (h : Set c now key val ttl = .ok c') :
    SameConfig c c' ∧ (UniqueKeys c.items → UniqueKeys c'.items) := by
  unfold Set at h
  split at h
  · split at h
    · simp at h
    · split at h
      · simp only [Except.ok.injEq] at h
        subst h
        exact ⟨⟨rfl, rfl, rfl, rfl⟩, mapSet_unique _ _ _⟩
      · split at h
        · simp only [Except.ok.injEq] at h
          subst h
          exact ⟨⟨rfl, rfl, rfl, rfl⟩, id⟩
        · split at h
          · simp only [Except.ok.injEq] at h
            subst h
            exact ⟨⟨rfl, rfl, rfl, rfl⟩, mapDelete_unique _ _⟩
          · split at h
            · simp at h
            · rename_i index c1 hget
              obtain ⟨hcfg, hu⟩ := getIndex_sameConfig hget
              split at h
              · simp only [Except.ok.injEq] at h
                subst h
                refine ⟨hcfg, ?_⟩
                intro hc
                simp only
                split
                · exact mapSet_unique _ _ _ (hu hc)
                · exact hu hc
              · simp at h
  · split at h
    · simp at h
    · rename_i index c1 hget
      obtain ⟨hcfg, hu⟩ := getIndex_sameConfig hget
      split at h
      · simp only [Except.ok.injEq] at h
        subst h
        exact ⟨hcfg, fun hc => mapSet_unique _ _ _ (hu hc)⟩
      · simp at h

theorem sweepSlot_sublist {V : Type} {c c1 : Cache V} {now : Int} {index count count1 : Nat}
    (h : sweepSlot c now index count = .ok (c1, count1)) : c1.items.Sublist c.items := by
  unfold sweepSlot at h
  split at h
  · simp at h
  · split at h
    · simp only [Except.ok.injEq, Prod.mk.injEq] at h
      obtain ⟨rfl, _⟩ := h
      exact List.Sublist.refl _
    · split at h
      · simp only [Except.ok.injEq, Prod.mk.injEq] at h
        obtain ⟨rfl, _⟩ := h
        exact List.Sublist.refl _
      · split at h
        · simp only [Except.ok.injEq, Prod.mk.injEq] at h
          obtain ⟨rfl, _⟩ := h
          exact List.Sublist.refl _
        · simp only [Except.ok.injEq, Prod.mk.injEq] at h
          obtain ⟨rfl, _⟩ := h
          exact List.filter_sublist _

theorem sweepPass_sublist {V : Type} {now : Int} (w : Nat) :
    ∀ {c c1 : Cache V} {index index1 count count1 : Nat},
      sweepPass now w c index count = .ok (c1, index1, count1) →
      c1.items.Sublist c.items := by
  induction w with
  | zero =>
    intro c c1 index index1 count count1 h
    simp only [sweepPass, Except.ok.injEq, Prod.mk.injEq] at h
    obtain ⟨rfl, _, _⟩ := h
    exact List.Sublist.refl _
  | succ w ih =>
    intro c c1 index index1 count count1 h
    simp only [sweepPass] at h
    split at h
    · simp at h
    · rename_i c2 count2 hslot
      split at h
      · simp at h
      · exact (ih h).trans (sweepSlot_sublist hslot)

theorem removeLoop_sublist {V : Type} {now : Int} (fuel : Nat) :
    ∀ {c c1 : Cache V}, removeLoop now fuel c = .ok c1 → c1.items.Sublist c.items := by
  induction fuel with
  | zero =>
    intro c c1 h
    simp [removeLoop] at h
  | succ fuel ih =>
    intro c c1 h
    simp only [removeLoop] at h
    split at h
    · simp at h
    · rename_i c2 index count hpass
      have h1 := sweepPass_sublist _ hpass
      split at h
      · simp only [Except.ok.injEq] at h
        subst h
        exact h1
      · exact (ih h).trans h1

theorem step_sameConfig {V : Type} {c c' : Cache V} {op : Op V} (h : step c op = .ok c') :
    SameConfig c c' ∧ (UniqueKeys c.items → UniqueKeys c'.items) := by
  cases op with
  | set now key val ttl => exact Set_sameConfig h
  | get now key =>
    simp only [step, Get] at h
    cases hg : get c now key false with
    | error e => simp [hg, Except.map] at h
    | ok r =>
      simp only [hg, Except.map, Except.ok.injEq] at h
      exact get_sameConfig (h ▸ hg : get c now key false = .ok (r.1, c'))
  | forcedGet now key =>
    simp only [step, ForcedGet] at h
    cases hg : get c now key true with
    | error e => simp [hg, Except.map] at h
    | ok r =>
      simp only [hg, Except.map, Except.ok.injEq] at h
      exact get_sameConfig (h ▸ hg : get c now key true = .ok (r.1, c'))
  | sweep now =>
    have hrem : remove c now = .ok c' := h
    obtain ⟨_, f1, f2, f3, _, _, f6, _⟩ := remove_spec hrem
    refine ⟨⟨f2, f3, f1, f6⟩, ?_⟩
    intro hc
    exact List.Nodup.sublist ((removeLoop_sublist _ hrem).map Prod.fst) hc

theorem run_sameConfig {V : Type} (ops : List (Op V)) :
    ∀ {c c' : Cache V}, run c ops = .ok c' →
      SameConfig c c' ∧ (UniqueKeys c.items → UniqueKeys c'.items) := by
  induction ops with
  | nil =>
    intro c c' h
    simp only [run, Except.ok.injEq] at h
    subst h
    exact ⟨⟨rfl, rfl, rfl, rfl⟩, id⟩
  | cons op ops ih =>
    intro c c' h
    simp only [run] at h
    split at h
    · simp at h
    · rename_i c1 hstep
      obtain ⟨⟨a1, a2, a3, a4⟩, hu1⟩ := step_sameConfig hstep
      obtain ⟨⟨b1, b2, b3, b4⟩, hu2⟩ := ih h
      exact ⟨⟨b1.trans a1, b2.trans a2, b3.trans a3, b4.trans a4⟩, fun hc => hu2 (hu1 hc)⟩

/-- Every reachable state has the capacity, window and refresh flag that `New` gave
it, and its Index binds every key once. In particular the window is positive
wherever the library value `floorLog2 MaxSize` is not negative. -/
theorem reachable_config {V : Type} {floorLog2 : Nat → Int} {options : Options}
    {c : Cache V} (h : Reachable floorLog2 options c) :
    c.size = options.MaxSize ∧ c.w = floorLog2 options.MaxSize + 1 ∧
      c.refreshTTL = options.RefreshTTL ∧ c.indexPoolCap = options.MaxSize ∧
      UniqueKeys c.items ∧ (0 ≤ floorLog2 options.MaxSize → 0 < c.w) := by
  obtain ⟨c0, ops, hnew, hrun⟩ := h
  obtain ⟨⟨a1, a2, a3, a4⟩, hu⟩ := run_sameConfig ops hrun
  unfold New at hnew
  split at hnew
  · simp at hnew
  · simp only [Except.ok.injEq] at hnew
    subst hnew
    have hw : c.w = floorLog2 options.MaxSize + 1 := a1
    refine ⟨a2, hw, a3, a4, hu (by simp [UniqueKeys]), ?_⟩
    intro h0
    omega

/-! ## The slots of a fresh cache -/

theorem slotOf_lt {n i : Nat} (hi : i < n) : slotOf n i < n := by
  unfold slotOf
  split
  · omega
  · split <;> omega

theorem slotOf_inj {n i j : Nat} (hi : i < n) (hj : j < n) (h : slotOf n i = slotOf n j) :
    i = j := by
  unfold slotOf at h
  split at h <;> split at h <;> (try split at h) <;> (try split at h) <;> omega

theorem slotOf_surj {n i : Nat} (hi : i < n) : ∃ j, j < n ∧ slotOf n j = i := by
  by_cases h1 : i + 3 ≤ n
  · exact ⟨i, hi, by simp [slotOf, h1]⟩
  · by_cases h2 : i + 2 = n
    · refine ⟨n - 1, by omega, ?_⟩
      unfold slotOf
      split
      · omega
      · split <;> omega
    · by_cases h3 : n = 1
      · refine ⟨0, by omega, ?_⟩
        unfold slotOf
        split
        · omega
        · split <;> omega
      · refine ⟨n - 2, by omega, ?_⟩
        unfold slotOf
        split
        · omega
        · split <;> omega

theorem slotOf_eq_self {n i : Nat} (hi : i < n) : slotOf n i = i ↔ (i + 3 ≤ n ∨ n = 1) := by
  unfold slotOf
  split
  · constructor
    · intro _
      exact Or.inl (by omega)
    · intro _
      rfl
  · split <;> constructor <;> intro h <;> omega

theorem Set_filling_slot {V : Type} {n m : Nat} {c : Cache V} (hf : Filling n m c)
    (hm : m < n) (now : Int) (key : String) (val : V) (ttl : Int)
    (hnew : mapGet c.items key = none) :
    ∃ c', Set c now key val ttl = .ok c' ∧ Filling n (m + 1) c' ∧
      c'.items = mapSet c.items key (newItem now val (slotOf n m) ttl) ∧
      c'.ring = c.ring.set (slotOf n m) key := by
  obtain ⟨hs, hr, hp, h1, h2⟩ := hf
  have hn0 : ¬ c.size = 0 := by omega
  have hcases : m + 3 ≤ n ∨ m + 2 = n ∨ (n = 1 ∧ m = 0) ∨ (m + 1 = n ∧ 2 ≤ n) := by omega
  rcases hcases with hA | hB | hC | hD
  · obtain ⟨hh, ht, hcell⟩ := h1 (Or.inl (by omega))
    have hslot : slotOf n m = c.head := by
      simp [slotOf, hA, hh]
    have hmod : (c.head + 1) % c.size = m + 1 := by
      rw [hh, hs]
      exact Nat.mod_eq_of_lt (by omega)
    have hgi : getIndex c = .ok (c.head, { c with head := (c.head + 1) % c.size }) := by
      have hne : ¬ (c.head + 1) % c.size = c.tail := by
        rw [hmod, ht]
        omega
      simp [getIndex, hp, hn0, hne]
    rw [hslot]
    refine ⟨_, Set_new_key now key val ttl hnew hgi (by simp only; omega), ?_, rfl, rfl⟩
    refine ⟨hs, by simpa using hr, hp, ?_, ?_⟩
    · intro _
      refine ⟨hmod, ht, ?_⟩
      simp only [List.getElem?_set]
      have : ¬ c.head = n - 1 := by omega
      simp [this, hcell]
    · intro h
      omega
  · obtain ⟨hh, ht, hcell⟩ := h1 (Or.inl (by omega))
    have hslot : slotOf n m = c.tail := by
      unfold slotOf
      split_ifs <;> omega
    have hmod : (c.head + 1) % c.size = c.tail := by
      rw [hh, hs, ht]
      have : m + 1 = n - 1 := by omega
      rw [this]
      exact Nat.mod_eq_of_lt (by omega)
    have htl : (c.tail + 1) % c.size = 0 := by
      rw [ht, hs]
      have : n - 1 + 1 = n := by omega
      rw [this]
      exact Nat.mod_self n
    have hcell2 : c.ring[c.tail]? = some "" := by
      rw [ht]
      exact hcell
    have hgi : getIndex c = .ok (c.tail, { c with tail := (c.tail + 1) % c.size }) := by
      simp [getIndex, hp, hn0, hmod, removeOnIndex, hcell2]
    rw [hslot]
    refine ⟨_, Set_new_key now key val ttl hnew hgi (by simp only; omega), ?_, rfl, rfl⟩
    refine ⟨hs, by simpa using hr, hp, ?_, ?_⟩
    · intro h
      omega
    · intro _
      exact ⟨show c.head = n - 2 by omega, htl⟩
  · obtain ⟨hh, ht, hcell⟩ := h1 (Or.inr hC)
    obtain ⟨hn1, hm0⟩ := hC
    have hslot : slotOf n m = c.tail := by
      unfold slotOf
      split_ifs <;> omega
    have hmod : (c.head + 1) % c.size = c.tail := by
      rw [hs, hn1, ht, hn1]
      exact Nat.mod_one _
    have hcell2 : c.ring[c.tail]? = some "" := by
      rw [ht]
      exact hcell
    have hgi : getIndex c = .ok (c.tail, { c with tail := (c.tail + 1) % c.size }) := by
      simp [getIndex, hp, hn0, hmod, removeOnIndex, hcell2]
    rw [hslot]
    refine ⟨_, Set_new_key now key val ttl hnew hgi (by simp only; omega), ?_, rfl, rfl⟩
    refine ⟨hs, by simpa using hr, hp, ?_, ?_⟩
    · intro h
      omega
    · intro h
      omega
  · obtain ⟨hh, ht⟩ := h2 hD
    have hslot : slotOf n m = c.head := by
      unfold slotOf
      split_ifs <;> omega
    have hmod : (c.head + 1) % c.size = n - 1 := by
      rw [hh, hs]
      have : n - 2 + 1 = n - 1 := by omega
      rw [this]
      exact Nat.mod_eq_of_lt (by omega)
    have hgi : getIndex c = .ok (c.head, { c with head := (c.head + 1) % c.size }) := by
      have hne : ¬ (c.head + 1) % c.size = c.tail := by
        rw [hmod, ht]
        omega
      simp [getIndex, hp, hn0, hne]
    rw [hslot]
    refine ⟨_, Set_new_key now key val ttl hnew hgi (by simp only; omega), ?_, rfl, rfl⟩
    refine ⟨hs, by simpa using hr, hp, ?_, ?_⟩
    · intro h
      omega
    · intro h
      omega

theorem run_filling_slots {V : Type} (n : Nat) :
    ∀ (l : List (Int × String × V × Int)) (m : Nat) (c : Cache V), Filling n m c →
      m + l.length ≤ n → (l.map fun p => p.2.1).Nodup →
      (∀ p ∈ l, mapGet c.items p.2.1 = none) →
      ∃ c', run c (l.map setWith) = .ok c' ∧ Filling n (m + l.length) c' ∧
        (∀ k, (∀ p ∈ l, p.2.1 ≠ k) → mapGet c'.items k = mapGet c.items k) ∧
        (∀ j p, l[j]? = some p →
          mapGet c'.items p.2.1 =
            some (newItem p.1 p.2.2.1 (slotOf n (m + j)) p.2.2.2) ∧
          c'.ring[slotOf n (m + j)]? = some p.2.1) ∧
        (∀ i, (∀ j, j < l.length → i ≠ slotOf n (m + j)) → c'.ring[i]? = c.ring[i]?) := by
  intro l
  induction l with
  | nil =>
    intro m c hf _ _ _
    refine ⟨c, rfl, hf, fun _ _ => rfl, ?_, fun _ _ => rfl⟩
    intro j p hp
    simp at hp
  | cons p l ih =>
    intro m c hf hlen hnd hnew
    simp only [List.length_cons] at hlen
    simp only [List.map_cons, List.nodup_cons, List.mem_map, not_exists, not_and] at hnd
    obtain ⟨hpl, hndl⟩ := hnd
    have hrlen : c.ring.length = n := hf.2.1
    obtain ⟨c1, hset, hf1, hitems, hring⟩ :=
      Set_filling_slot hf (by omega) p.1 p.2.1 p.2.2.1 p.2.2.2
        (hnew p (List.mem_cons_self _ _))
    have hnew1 : ∀ q ∈ l, mapGet c1.items q.2.1 = none := by
      intro q hq
      have hne : ¬ q.2.1 = p.2.1 := hpl q hq
      rw [hitems, mapGet_mapSet]
      simp only [hne, if_false]
      exact hnew q (List.mem_cons_of_mem _ hq)
    obtain ⟨c', hrun, hf', hother, hent, hcells⟩ := ih (m + 1) c1 hf1 (by omega) hndl hnew1
    have hslot : slotOf n m < n := slotOf_lt (by omega)
    refine ⟨c', ?_, ?_, ?_, ?_, ?_⟩
    · simp only [List.map_cons, run, step, setWith]
      rw [hset]
      exact hrun
    · have : m + (l.length + 1) = m + 1 + l.length := by omega
      simp only [List.length_cons]
      rw [this]
      exact hf'
    · intro k hk
      rw [hother k (fun q hq => hk q (List.mem_cons_of_mem _ hq)), hitems, mapGet_mapSet]
      have hne : ¬ k = p.2.1 := fun e => hk p (List.mem_cons_self _ _) e.symm
      simp only [hne, if_false]
    · intro j q hq
      cases j with
      | zero =>
        simp only [List.getElem?_cons_zero, Option.some.injEq] at hq
        subst hq
        constructor
        · rw [hother p.2.1 (fun q hq => hpl q hq), hitems, mapGet_mapSet]
          simp
        · rw [Nat.add_zero]
          rw [hcells (slotOf n m) ?_, hring, List.getElem?_set]
          · simp [hrlen, hslot]
          · intro j hj he
            have := slotOf_inj (n := n) (i := m) (j := m + 1 + j) (by omega) (by omega) he
            omega
      | succ j =>
        simp only [List.getElem?_cons_succ] at hq
        have := hent j q hq
        have harith : m + (j + 1) = m + 1 + j := by omega
        rw [harith]
        exact this
    · intro i hi
      rw [hcells i ?_, hring, List.getElem?_set]
      · have hne : ¬ slotOf n m = i := by
          intro e
          exact hi 0 (by simp) (by rw [Nat.add_zero]; exact e.symm)
        simp [hne]
      · intro j hj
        have := hi (j + 1) (by simp only [List.length_cons]; omega)
        have harith : m + (j + 1) = m + 1 + j := by omega
        rw [harith] at this
        exact this

/-- The state after a read that finds its key expired, with room in the free-slot
queue and the recorded slot inside the ring. -/
theorem get_expired {V : Type} (c : Cache V) (key : String) (it : Item V) (now : Int)
    (forced : Bool) (hk : mapGet c.items key = some it) (hexp : it.expired now = true)
    (hroom : c.indexPool.length < c.indexPoolCap) (hidx : it.index < c.ring.length) :
    get c now key forced = .ok (if forced then some it.Val else none,
      { c with
        indexPool := c.indexPool ++ [it.index]
        ring := c.ring.set it.index ""
        items := mapDelete c.items key }) := by
  simp [get, hk, hexp, hroom, hidx]

/-- Where the recycled slot lands, for every capacity. On the cache built by `New`
with `MaxSize = n`, after `n` Sets of pairwise-distinct keys (any values, ttls and
instants), let key number `num` have a positive ttl that has elapsed at `now`. Then
Get of that key returns absent, the Set of a new key is bound to the slot
`slotOf n num` that the expired key had, no other key is unbound, and Get of the
new key returns its value. The ring cell `num` holds the new key exactly when
`num + 3 ≤ n` or `n = 1`: for the last two keys of a cache of capacity at least 2
it does not. -/
theorem recycled_slot_general {V : Type} (floorLog2 : Nat → Int) (refresh : Bool) (n : Nat)
    (hn : 1 ≤ n) (kts : List (Int × String × V × Int)) (hlen : kts.length = n)
    (hnd : (kts.map fun p => p.2.1).Nodup) (num : Nat) (p : Int × String × V × Int)
    (hp : kts[num]? = some p) (httl : 0 < p.2.2.2) (now : Int) (hnow : p.1 + p.2.2.2 < now)
    (newkey : String) (hfresh : ∀ q ∈ kts, q.2.1 ≠ newkey) (val2 : V) (now2 now3 : Int) :
    ∃ c0 c1 c2 c3 : Cache V,
      New floorLog2 ⟨n, refresh⟩ = .ok c0 ∧ run c0 (kts.map setWith) = .ok c1 ∧
      Get c1 now p.2.1 = .ok (none, c2) ∧ Set c2 now2 newkey val2 0 = .ok c3 ∧
      c3.ring[slotOf n num]? = some newkey ∧
      (c3.ring[num]? = some newkey ↔ (num + 3 ≤ n ∨ n = 1)) ∧
      (∀ q ∈ kts, q.2.1 ≠ p.2.1 →
        mapGet c3.items q.2.1 = mapGet c1.items q.2.1 ∧ mapGet c1.items q.2.1 ≠ none) ∧
      Get c3 now3 newkey = .ok (some val2, c3) := by
  have hnum : num < n := by
    rw [← hlen]
    exact (List.getElem?_eq_some.mp hp).1
  obtain ⟨c0, hnew0, hf0, hitems0⟩ := New_filling (V := V) floorLog2 refresh n hn
  obtain ⟨c1, hrun, hf1, hother, hent, hcells⟩ :=
    run_filling_slots n kts 0 c0 hf0 (by omega) hnd (by
      intro q _
      rw [hitems0]
      rfl)
  have hcap : c1.indexPoolCap = n :=
    (reachable_config (⟨c0, kts.map setWith, hnew0, hrun⟩ :
      Reachable floorLog2 ⟨n, refresh⟩ c1)).2.2.2.1
  obtain ⟨_, hrlen, hpool, _, _⟩ := hf1
  have hslot : slotOf n num < n := slotOf_lt hnum
  obtain ⟨hitem, hcell⟩ := hent num p hp
  rw [Nat.zero_add] at hitem hcell
  have hexp : (newItem p.1 p.2.2.1 (slotOf n num) p.2.2.2).expired now = true := by
    have hnot : ¬ p.2.2.2 ≤ 0 := by omega
    simp [newItem, Item.touch, Item.expired, httl, hnot, hnow]
  have hget := get_expired c1 p.2.1 _ now false hitem hexp
    (by rw [hpool, hcap]; simp only [List.length_nil]; omega)
    (by rw [newItem_index, hrlen]; exact hslot)
  rw [newItem_index, hpool] at hget
  simp only [List.nil_append, Bool.false_eq_true, if_false] at hget
  have hnewkey1 : mapGet c1.items newkey = none := by
    rw [hother newkey hfresh, hitems0]
    rfl
  have hgi : getIndex ({ c1 with
      indexPool := [slotOf n num]
      ring := c1.ring.set (slotOf n num) ""
      items := mapDelete c1.items p.2.1 } : Cache V) =
      .ok (slotOf n num, { c1 with
        indexPool := []
        ring := c1.ring.set (slotOf n num) ""
        items := mapDelete c1.items p.2.1 }) := by
    simp [getIndex]
  have hset := Set_new_key now2 newkey val2 0
    (by simp [mapGet_mapDelete, hnewkey1]) hgi
    (by simp only [List.length_set]; omega)
  obtain ⟨c3, hset3, hr3, hi3⟩ : ∃ c3 : Cache V,
      Set ({ c1 with
        indexPool := [slotOf n num]
        ring := c1.ring.set (slotOf n num) ""
        items := mapDelete c1.items p.2.1 } : Cache V) now2 newkey val2 0 = .ok c3 ∧
      c3.ring = (c1.ring.set (slotOf n num) "").set (slotOf n num) newkey ∧
      c3.items = mapSet (mapDelete c1.items p.2.1) newkey ⟨val2, slotOf n num, 0, 0⟩ :=
    ⟨_, hset, rfl, by simp [newItem_zero]⟩
  have hring3 : c3.ring[slotOf n num]? = some newkey := by
    rw [hr3]
    simp only [List.getElem?_set]
    simp [hrlen, hslot]
  refine ⟨c0, c1, _, c3, hnew0, hrun, hget, hset3, hring3, ?_, ?_, ?_⟩
  · rw [← slotOf_eq_self hnum]
    constructor
    · intro h
      by_contra hne
      rw [hr3] at h
      simp only [List.getElem?_set, hne, if_false] at h
      obtain ⟨j, hj, hjs⟩ := slotOf_surj hnum
      have hjlen : j < kts.length := by omega
      have hq : kts[j]? = some kts[j] := List.getElem?_eq_getElem hjlen
      have hcellj := (hent j kts[j] hq).2
      rw [Nat.zero_add, hjs, h] at hcellj
      simp only [Option.some.injEq] at hcellj
      exact hfresh kts[j] (List.getElem_mem hjlen) hcellj.symm
    · intro h
      have e : ∀ R : List String, R[num]? = R[slotOf n num]? := by
        intro R
        rw [h]
      exact (e _).trans hring3
  · intro q hq hne
    have hne2 : ¬ q.2.1 = newkey := hfresh q hq
    obtain ⟨j, hj⟩ := List.getElem?_of_mem hq
    refine ⟨by simp [hi3, mapGet_mapSet, mapGet_mapDelete, hne, hne2], ?_⟩
    rw [(hent j q hj).1]
    simp
  · have hbound : mapGet c3.items newkey = some ⟨val2, slotOf n num, 0, 0⟩ := by
      simp [hi3, mapGet_mapSet]
    exact get_of_ttl_le c3 newkey _ now3 false hbound (le_refl _)

end GoCache
